import Mathlib

/-! # ghrelgrab: asset-name resolution and archive extraction

A shallow embedding of `src/main.go` and the properties of its
substitution resolver, template expander, format dispatcher, extractors,
plain copier and temporary-file handling.

Conventions of the embedding

* A Go `string` is a `Str`, the list of its Unicode code points (the text
  is taken to be valid UTF-8, so that rune-wise and byte-wise views of the
  ASCII separators `,` `=` `/` `{` agree).
* A Go `map[string]string` is a `SubstMap`, a list of bindings with at most
  one binding per key.
* A run-time panic (index out of range) is the `none` of an `Option`.
-/

namespace Ghrelgrab

/-- Go strings as sequences of code points. -/
abbrev Str := List Char

/-! ## The `strings` package functions used by the program -/

/-- Go `unicode.IsSpace`: the white space characters that `strings.TrimSpace`
removes. -/
def isSpace (c : Char) : Bool :=
  let n := c.toNat
  n == 0x09 || n == 0x0A || n == 0x0B || n == 0x0C || n == 0x0D || n == 0x20 ||
  n == 0x85 || n == 0xA0 || n == 0x1680 || (0x2000 ≤ n && n ≤ 0x200A) ||
  n == 0x2028 || n == 0x2029 || n == 0x202F || n == 0x205F || n == 0x3000

/-- Go `strings.TrimSpace`: drop leading and trailing white space. -/
def TrimSpace (s : Str) : Str :=
  (s.dropWhile isSpace).rdropWhile isSpace

/-- Go `strings.Split(s, sep)` for a one-character separator: the pieces
between the separators, one more than there are separators. -/
def Split (s : Str) (sep : Char) : List Str :=
  match s with
  | [] => [[]]
  | c :: cs =>
    if c = sep then [] :: Split cs sep
    else
      match Split cs sep with
      | [] => [[c]]
      | p :: ps => (c :: p) :: ps

/-- Go `strings.SplitN(s, sep, 2)` for a one-character separator: cut at the
first separator only; a string without separator is returned whole. -/
def SplitN2 (s : Str) (sep : Char) : List Str :=
  match s.dropWhile (fun c => c != sep) with
  | [] => [s]
  | _ :: b => [s.takeWhile (fun c => c != sep), b]

/-- Go `strings.Join(pieces, sep)` for a one-character separator. -/
def Join (pieces : List Str) (sep : Char) : Str :=
  match pieces with
  | [] => []
  | [p] => p
  | p :: q :: rest => p ++ sep :: Join (q :: rest) sep

/-! ## Substitution maps -/

/-- The `map[string]string` built by `parseSubstMap`. -/
abbrev SubstMap := List (Str × Str)

/-- Map assignment `out[k] = v`: the binding of `k`, if any, is replaced. -/
def mapSet (out : SubstMap) (k v : Str) : SubstMap :=
  (k, v) :: out.filter (fun kv => kv.1 != k)

/-- Map lookup `sub, ok := m[k]`. -/
def mapGet (m : SubstMap) (k : Str) : Option Str :=
  match m with
  | [] => none
  | (k', v) :: rest => if k' = k then some v else mapGet rest k

/-- One iteration of the loop of `parseSubstMap` over the piece `p`
(`main.go` lines 150-164); `none` is an index-out-of-range panic. -/
def parseStep (out : SubstMap) (p : Str) : Option SubstMap :=
  let p := TrimSpace p
  if p = [] then some out
  else
    let kv := SplitN2 p '='
    if kv.length ≠ 2 then some out
    else do
      let k0 ← kv.get? 0
      let v0 ← kv.get? 1
      let k := TrimSpace k0
      let v := TrimSpace v0
      if k ≠ [] ∧ v ≠ [] then some (mapSet out k v) else some out

/-- The function `parseSubstMap` of `main.go` (lines 143-166). -/
def parseSubstMap (s : Str) : Option SubstMap :=
  if s = [] then some []
  else (Split s ',').foldlM parseStep []

/-- The substitution of `main` (lines 67-72 and 78-83): the detected value is
replaced by its binding in the parsed map when it has one. -/
def resolve (detected spec : Str) : Option Str := do
  let m ← parseSubstMap spec
  match mapGet m detected with
  | some sub => some sub
  | none => some detected

/-- The spec string `k_1=v_1,...,k_n=v_n` of a list of pairs. -/
def specOf (pairs : List (Str × Str)) : Str :=
  Join (pairs.map (fun kv => kv.1 ++ '=' :: kv.2)) ','

/-- A string that is non-empty and starts and ends with a character that is
not white space. -/
def Trimmed (s : Str) : Prop :=
  s ≠ [] ∧ s.head?.map isSpace = some false ∧ s.getLast?.map isSpace = some false

instance (s : Str) : Decidable (Trimmed s) := by
  unfold Trimmed; infer_instance

/-- A well-formed pair: key and value are trimmed and hold no comma, and the
key holds no equals sign. -/
def WellFormedPair (kv : Str × Str) : Prop :=
  Trimmed kv.1 ∧ Trimmed kv.2 ∧ ',' ∉ kv.1 ∧ ',' ∉ kv.2 ∧ '=' ∉ kv.1

instance (kv : Str × Str) : Decidable (WellFormedPair kv) := by
  unfold WellFormedPair; infer_instance

/-- A malformed piece: it has no equals sign, or the text before its first
equals sign or the text after it is empty once trimmed. -/
def Malformed (m : Str) : Prop :=
  '=' ∉ m ∨ TrimSpace (m.takeWhile (fun c => c != '=')) = [] ∨
    TrimSpace ((m.dropWhile (fun c => c != '=')).tail) = []

instance (m : Str) : Decidable (Malformed m) := by
  unfold Malformed; infer_instance

/-- Insertion of the piece `m` before position `i` of a list of pieces. -/
def insertPiece (ps : List Str) (i : Nat) (m : Str) : List Str :=
  ps.take i ++ m :: ps.drop i


/-- Go `strings.ReplaceAll(s, old, new)` for a non-empty `old`, scanning `s`
from the left: `skip` counts the characters of a matched occurrence that are
still to be passed over, so that occurrences never overlap. -/
def replaceFrom (old new : Str) : Nat → Str → Str
  | _, [] => []
  | skip + 1, _ :: cs => replaceFrom old new skip cs
  | 0, c :: cs =>
    if old.isPrefixOf (c :: cs) then new ++ replaceFrom old new (old.length - 1) cs
    else c :: replaceFrom old new 0 cs

/-- Go `strings.ReplaceAll(s, old, new)`: every non-overlapping occurrence of
`old`, leftmost first, is replaced by `new`; with an empty `old`, `new` is
inserted before every character and at the end. -/
def ReplaceAll (s old new : Str) : Str :=
  if old = new then s
  else if old = [] then new ++ s.flatMap (fun c => c :: new)
  else replaceFrom old new 0 s

/-- The filename built by `main` (lines 90-92): `{version}`, then `{os}`, then
`{arch}` are replaced. -/
def resolveFilename (filePattern version osSub archSub : Str) : Str :=
  let filename := ReplaceAll filePattern "{version}".toList version
  let filename := ReplaceAll filename "{os}".toList osSub
  ReplaceAll filename "{arch}".toList archSub

/-- The three placeholders of a filename template. -/
inductive Placeholder where
  | version
  | os
  | arch
  deriving DecidableEq, Repr

/-- The literal text of a placeholder. -/
def Placeholder.token : Placeholder → Str
  | .version => "{version}".toList
  | .os => "{os}".toList
  | .arch => "{arch}".toList

/-- The value a context `(version, os, arch)` gives to a placeholder. -/
def Placeholder.value (version osSub archSub : Str) : Placeholder → Str
  | .version => version
  | .os => osSub
  | .arch => archSub

/-- The three replacements done in the order `p`, `q`, `r`. -/
def resolveInOrder (p q r : Placeholder) (filePattern version osSub archSub : Str) : Str :=
  let val := Placeholder.value version osSub archSub
  ReplaceAll (ReplaceAll (ReplaceAll filePattern p.token (val p)) q.token (val q))
    r.token (val r)

/-- A template in which every `{` begins one of the three placeholders. -/
def placeholdersOnly : Str → Bool
  | [] => true
  | c :: cs =>
    (c != '{' || "{version}".toList.isPrefixOf (c :: cs) || "{os}".toList.isPrefixOf (c :: cs)
      || "{arch}".toList.isPrefixOf (c :: cs)) && placeholdersOnly cs

/-! ## Format dispatch -/

/-- Go `strings.HasSuffix`. -/
def HasSuffix (s suffix : Str) : Bool :=
  suffix.length ≤ s.length && s.drop (s.length - suffix.length) == suffix

/-- The three ways `main` stores the downloaded artifact. -/
inductive Strategy where
  | tarGz
  | zip
  | plain
  deriving DecidableEq, Repr

/-- The `switch` of `main` (lines 113-132) on the lowercased filename. The
function `strings.ToLower` of the Go library is the parameter `ToLower`. -/
def dispatch (ToLower : Str → Str) (filename : Str) : Strategy :=
  let lower := ToLower filename
  if HasSuffix lower ".tar.gz".toList || HasSuffix lower ".tgz".toList then Strategy.tarGz
  else if HasSuffix lower ".zip".toList then Strategy.zip
  else Strategy.plain

/-- The lowercasing of the ASCII letters, which `strings.ToLower` does on
ASCII text. -/
def asciiLower (s : Str) : Str := s.map Char.toLower

/-- A template read as a sequence of segments: a literal character or a
placeholder. -/
inductive Seg where
  | lit (c : Char)
  | tok (p : Placeholder)
  deriving DecidableEq

/-- The text of one segment. -/
def Seg.text : Seg → Str
  | .lit c => [c]
  | .tok p => p.token

/-- The text of a sequence of segments. -/
def render (segs : List Seg) : Str := segs.flatMap Seg.text

/-- Segment-wise substitution of the value `v` for the placeholder `p`. -/
def substSeg (p : Placeholder) (v : Str) (segs : List Seg) : List Seg :=
  segs.flatMap (fun s => if s = Seg.tok p then v.map Seg.lit else [s])

/-- Segments whose literal characters are all different from `{`. -/
def GoodSegs (segs : List Seg) : Prop := ∀ c, Seg.lit c ∈ segs → c ≠ '{'


/-! ## Paths (`path/filepath` with the separator `/`) -/

/-- The elements of a path: the non-empty pieces between the separators. -/
def pathElems (p : Str) : List Str := (Split p '/').filter (fun e => e ≠ [])

/-- The element stack of `filepath.Clean`: `.` is dropped, `..` removes the
element before it, or is dropped at the root, or is kept at the front of a
relative path. `st` is the stack, top first. -/
def cleanElems (rooted : Bool) : List Str → List Str → List Str
  | st, [] => st.reverse
  | st, e :: es =>
    if e = ".".toList then cleanElems rooted st es
    else if e = "..".toList then
      match st with
      | [] => if rooted then cleanElems rooted [] es else cleanElems rooted [e] es
      | top :: st' =>
        if top = "..".toList then cleanElems rooted (e :: st) es
        else cleanElems rooted st' es
    else cleanElems rooted (e :: st) es

/-- Go `filepath.Clean`: the shortest path naming the same place by lexical
processing alone. -/
def pathClean (p : Str) : Str :=
  let rooted := p.head? == some '/'
  let body := Join (cleanElems rooted [] (pathElems p)) '/'
  if rooted then '/' :: body
  else if body = [] then ".".toList
  else body

/-- Go `filepath.Join(a, b)`: empty elements are ignored and the result is
cleaned; it is empty when both elements are. -/
def pathJoin (a b : Str) : Str :=
  if a ≠ [] then pathClean (a ++ '/' :: b)
  else if b ≠ [] then pathClean b
  else []

/-- Go `filepath.Dir`: all but the last element of the path, cleaned. -/
def pathDir (p : Str) : Str :=
  pathClean (p.rdropWhile (fun c => c != '/'))

/-- Go `filepath.Base`: the last element of the path, trailing separators
removed first. -/
def pathBase (p : Str) : Str :=
  if p = [] then ".".toList
  else
    let q := p.rdropWhile (fun c => c == '/')
    let b := q.rtakeWhile (fun c => c != '/')
    if b = [] then "/".toList else b

/-- File contents. -/
abbrev Bytes := List Nat

/-- A node of the file system: a directory, or a regular file with its
permission bits and its contents. -/
inductive Node where
  | dir
  | file (mode : Nat) (data : Bytes)
  deriving DecidableEq, Repr

/-- The errors of the run-time library that the program propagates. -/
inductive Err where
  | notExist
  | exist
  | notDir
  | isDir
  | permission
  | format
  | transport
  | status (code : Nat)
  deriving DecidableEq, Repr

deriving instance DecidableEq for Except

/-- The state of the file system. -/
abbrev FS := Str → Option Node

/-- The file system with the node at `p` replaced (or removed). -/
def fsPut (fs : FS) (p : Str) (n : Option Node) : FS :=
  fun q => if q = p then n else fs q

/-- The owner-write permission bit `0o200`. -/
def ownerWrite (mode : Nat) : Bool := (mode / 128) % 2 == 1

/-- The owner-read permission bit `0o400`. -/
def ownerRead (mode : Nat) : Bool := (mode / 256) % 2 == 1

/-- The directories that always exist: `.`, `/` and the chains of `..`. -/
def isAnchor (p : Str) : Bool :=
  p == ".".toList || p == "/".toList || pathBase p == "..".toList

/-- The node at the cleaned path `p` (`os.Stat`). -/
def stat (fs : FS) (p : Str) : Option Node :=
  if isAnchor p then some Node.dir else fs p

/-- The contents of the regular file named by `path`, if there is one. -/
def fileData (fs : FS) (path : Str) : Option Bytes :=
  match stat fs (pathClean path) with
  | some (Node.file _ data) => some data
  | _ => none

/-- Go `os.Mkdir` on a cleaned path: the path must be free and its parent a
directory. -/
def Mkdir (fs : FS) (p : Str) : Except Err FS :=
  match stat fs p with
  | some _ => .error Err.exist
  | none =>
    match stat fs (pathDir p) with
    | some Node.dir => .ok (fsPut fs p (some Node.dir))
    | some (Node.file _ _) => .error Err.notDir
    | none => .error Err.notExist

/-- The path written with the elements `es`. -/
def rawOf (rooted : Bool) (es : List Str) : Str :=
  if rooted then '/' :: Join es '/' else Join es '/'

/-- The walk of the kernel along the elements of a path as written, last
element first: every `..` must be taken from an existing directory. The other
elements need no check of their own, since a node exists only inside a
directory: a path through a missing name or a regular file names no node. -/
def resolves (fs : FS) (rooted : Bool) : List Str → Bool
  | [] => true
  | e :: parents =>
    resolves fs rooted parents &&
      (e != "..".toList || stat fs (pathClean (rawOf rooted parents.reverse)) == some Node.dir)

/-- Go `os.Stat` on the path written with the elements `rev`, last element
first: the node it names when the walk along it succeeds. -/
def statRaw (fs : FS) (rooted : Bool) (rev : List Str) : Option Node :=
  if resolves fs rooted rev then stat fs (pathClean (rawOf rooted rev.reverse)) else none

/-- Go `os.Mkdir` on the path written with the elements `rev`, last element
first: the walk to the parent must succeed, and the last element must be a
new name, not `.` or `..`. -/
def mkdirRaw (fs : FS) (rooted : Bool) (rev : List Str) : Except Err FS :=
  match rev with
  | [] => .error Err.exist
  | e :: parents =>
    if resolves fs rooted parents then
      if e = ".".toList ∨ e = "..".toList then .error Err.exist
      else Mkdir fs (pathClean (rawOf rooted rev.reverse))
    else .error Err.notExist

/-- The recursion of Go `os.MkdirAll` on the path as written, its elements
last first: an existing directory ends it with success, an existing file with
an error; otherwise the parent is made first, then the path itself, and an
error of that `Mkdir` is dropped when the path is a directory after all (as
for `foo/.`). -/
def mkdirAllElems (fs : FS) (rooted : Bool) : List Str → Except Err FS
  | [] => .ok fs
  | e :: parents =>
    match statRaw fs rooted (e :: parents) with
    | some Node.dir => .ok fs
    | some (Node.file _ _) => .error Err.notDir
    | none =>
      match mkdirAllElems fs rooted parents with
      | .error err => .error err
      | .ok fs1 =>
        match mkdirRaw fs1 rooted (e :: parents) with
        | .ok fs2 => .ok fs2
        | .error err =>
          if statRaw fs1 rooted (e :: parents) = some Node.dir then .ok fs1 else .error err

/-- Go `os.Stat(path)` on a path as written. -/
def statPath (fs : FS) (path : Str) : Option Node :=
  statRaw fs (path.head? == some '/') (pathElems path).reverse

/-- Go `os.MkdirAll(path, 0o755)`: the path is walked as it is written, so
that `x/../y` also makes `x`, and fails when `x` is a regular file. -/
def MkdirAll (fs : FS) (path : Str) : Except Err FS :=
  if path = [] then .error Err.notExist
  else mkdirAllElems fs (path.head? == some '/') (pathElems path).reverse

/-- Go `os.OpenFile(path, O_CREATE|O_WRONLY|O_TRUNC, perm)`: an existing
regular file must be writable and is emptied, keeping its mode; a missing
file is created empty with the permission bits of `perm`. -/
def OpenFile (fs : FS) (path : Str) (perm : Nat) : Except Err FS :=
  if path = [] then .error Err.notExist
  else
    let p := pathClean path
    match stat fs p with
    | some Node.dir => .error Err.isDir
    | some (Node.file mode _) =>
      if ownerWrite mode then .ok (fsPut fs p (some (Node.file mode []))) else .error Err.permission
    | none =>
      match stat fs (pathDir p) with
      | some Node.dir => .ok (fsPut fs p (some (Node.file (perm % 512) [])))
      | some (Node.file _ _) => .error Err.notDir
      | none => .error Err.notExist

/-- The writes of `io.Copy` into the file opened at `path`: the bytes are
appended to its contents. -/
def writeAll (fs : FS) (path : Str) (data : Bytes) : FS :=
  let p := pathClean path
  match fs p with
  | some (Node.file mode old) => fsPut fs p (some (Node.file mode (old ++ data)))
  | _ => fs

/-- Go `os.Open(path)`: the path must name a readable node. -/
def Open (fs : FS) (path : Str) : Except Err Unit :=
  if path = [] then .error Err.notExist
  else
    match stat fs (pathClean path) with
    | none => .error Err.notExist
    | some Node.dir => .ok ()
    | some (Node.file mode _) => if ownerRead mode then .ok () else .error Err.permission

/-- The reads from the file opened at `path`: its contents at the time of
reading; reading a directory is an error. -/
def readAll (fs : FS) (path : Str) : Except Err Bytes :=
  match stat fs (pathClean path) with
  | some (Node.file _ data) => .ok data
  | some Node.dir => .error Err.isDir
  | none => .error Err.notExist

/-- Go `os.Remove(path)`, its error ignored: a regular file is removed. -/
def Remove (fs : FS) (path : Str) : FS :=
  match stat fs (pathClean path) with
  | some (Node.file _ _) => fsPut fs (pathClean path) none
  | _ => fs

/-! ## Archives

What the readers of `archive/tar` (over `compress/gzip`) and `archive/zip`
deliver is the input of the extractors: the sequence of entries, each with its
header fields and contents, and the places where reading fails. An archive is
decoded when it is opened. -/

/-- An entry of a tar stream as `tar.Reader.Next` and the reads that follow
deliver it; `readErr` says that reading the contents fails after `data`. -/
structure TarEntry where
  name : Str
  typeflag : Char
  mode : Nat
  data : Bytes
  readErr : Bool
  deriving DecidableEq, Repr

/-- Go `tar.TypeReg`. -/
def TypeReg : Char := '0'

/-- Go `tar.TypeDir`. -/
def TypeDir : Char := '5'

/-- A tar stream: its entries, and whether `Next` ends them with an error
instead of `io.EOF`. -/
structure TarStream where
  entries : List TarEntry
  nextErr : Bool
  deriving DecidableEq, Repr

/-- A file of a zip container as `zip.Reader.File` lists it: `isDir` is
`f.FileInfo().IsDir()`, `mode` is `f.Mode()`, `openErr` says that `f.Open`
fails, `readErr` that reading the contents fails after `data`. -/
structure ZipFile where
  name : Str
  isDir : Bool
  mode : Nat
  data : Bytes
  openErr : Bool
  readErr : Bool
  deriving DecidableEq, Repr

/-- The decoders of the Go library: `gunzipTar` is `gzip.NewReader` followed
by `tar.NewReader`, `unzip` is `zip.OpenReader`; `none` is their error. -/
structure Codec where
  gunzipTar : Bytes → Option TarStream
  unzip : Bytes → Option (List ZipFile)

/-- The result of an operation together with the file system it leaves. -/
structure Outcome (α : Type) where
  result : Except Err α
  fs : FS

/-- The loop of `extractTarGz` (`main.go` lines 250-279) over the entries
still to come, `produced` being the paths appended so far. -/
def tarLoop (outDir : Str) (nextErr : Bool) : FS → List Str → List TarEntry → Outcome (List Str)
  | fs, produced, [] =>
    if nextErr then ⟨.error Err.format, fs⟩ else ⟨.ok produced, fs⟩
  | fs, produced, hdr :: rest =>
    let fp := pathJoin outDir hdr.name
    if hdr.typeflag = TypeDir then
      match MkdirAll fs fp with
      | .error e => ⟨.error e, fs⟩
      | .ok fs1 => tarLoop outDir nextErr fs1 produced rest
    else if hdr.typeflag = TypeReg then
      match MkdirAll fs (pathDir fp) with
      | .error e => ⟨.error e, fs⟩
      | .ok fs1 =>
        match OpenFile fs1 fp hdr.mode with
        | .error e => ⟨.error e, fs1⟩
        | .ok fs2 =>
          let fs3 := writeAll fs2 fp hdr.data
          if hdr.readErr then ⟨.error Err.format, fs3⟩
          else tarLoop outDir nextErr fs3 (produced ++ [fp]) rest
    else tarLoop outDir nextErr fs produced rest

/-- The opening of the archive in `extractTarGz` (lines 238-248): `os.Open`,
then `gzip.NewReader` and `tar.NewReader` on the contents of the file. -/
def openTarGz (codec : Codec) (fs : FS) (gzPath : Str) : Except Err TarStream :=
  match Open fs gzPath with
  | .error e => .error e
  | .ok _ =>
    match readAll fs gzPath with
    | .error e => .error e
    | .ok bytes =>
      match codec.gunzipTar bytes with
      | none => .error Err.format
      | some tr => .ok tr

/-- The function `extractTarGz` of `main.go` (lines 237-281). -/
def extractTarGz (codec : Codec) (fs : FS) (gzPath outDir : Str) : Outcome (List Str) :=
  match openTarGz codec fs gzPath with
  | .error e => ⟨.error e, fs⟩
  | .ok tr => tarLoop outDir tr.nextErr fs [] tr.entries

/-- The loop of `extractZip` (`main.go` lines 205-233). -/
def zipLoop (outDir : Str) : FS → List Str → List ZipFile → Outcome (List Str)
  | fs, produced, [] => ⟨.ok produced, fs⟩
  | fs, produced, f :: rest =>
    let fp := pathJoin outDir f.name
    if f.isDir then
      match MkdirAll fs fp with
      | .error e => ⟨.error e, fs⟩
      | .ok fs1 => zipLoop outDir fs1 produced rest
    else
      match MkdirAll fs (pathDir fp) with
      | .error e => ⟨.error e, fs⟩
      | .ok fs1 =>
        if f.openErr then ⟨.error Err.format, fs1⟩
        else
          match OpenFile fs1 fp f.mode with
          | .error e => ⟨.error e, fs1⟩
          | .ok fs2 =>
            let fs3 := writeAll fs2 fp f.data
            if f.readErr then ⟨.error Err.format, fs3⟩
            else zipLoop outDir fs3 (produced ++ [fp]) rest

/-- The opening of the container in `extractZip` (lines 199-203):
`zip.OpenReader` on the file. -/
def openZip (codec : Codec) (fs : FS) (zipPath : Str) : Except Err (List ZipFile) :=
  match Open fs zipPath with
  | .error e => .error e
  | .ok _ =>
    match readAll fs zipPath with
    | .error e => .error e
    | .ok bytes =>
      match codec.unzip bytes with
      | none => .error Err.format
      | some files => .ok files

/-- The function `extractZip` of `main.go` (lines 198-235). -/
def extractZip (codec : Codec) (fs : FS) (zipPath outDir : Str) : Outcome (List Str) :=
  match openZip codec fs zipPath with
  | .error e => ⟨.error e, fs⟩
  | .ok files => zipLoop outDir fs [] files

/-- The function `copyFile` of `main.go` (lines 283-301); the source is read
after the destination has been opened and emptied. -/
def copyFile (fs : FS) (src dst : Str) (mode : Nat) : Outcome Unit :=
  match Open fs src with
  | .error e => ⟨.error e, fs⟩
  | .ok _ =>
    match MkdirAll fs (pathDir dst) with
    | .error e => ⟨.error e, fs⟩
    | .ok fs1 =>
      match OpenFile fs1 dst mode with
      | .error e => ⟨.error e, fs1⟩
      | .ok fs2 =>
        match readAll fs2 src with
        | .error e => ⟨.error e, fs2⟩
        | .ok data => ⟨.ok (), writeAll fs2 dst data⟩

/-! ## The pipeline -/

/-- An HTTP response: status code, the bytes of the body that arrive, and
whether reading the body ends with an error. -/
structure Response where
  status : Nat
  body : Bytes
  bodyErr : Bool
  deriving DecidableEq, Repr

/-- What the program gets from outside: the lowercasing of the Go library,
the archive decoders, the answer of the HTTP client (`none` is a transport
error) and the name that `os.CreateTemp` chooses. -/
structure World where
  ToLower : Str → Str
  codec : Codec
  http : Str → Str → Option Response
  tempName : Str

/-- The command-line flags read by `main`. -/
structure Flags where
  repo : Str
  version : Str
  filePattern : Str
  outDir : Str
  osFlag : Str
  osMapFlag : Str
  arch : Str
  archMapFlag : Str
  token : Str

/-- Go `os.CreateTemp`: a new empty file of mode `0o600` under the chosen
name, which must be free. -/
def CreateTemp (fs : FS) (name : Str) : Except Err FS :=
  let p := pathClean name
  match stat fs p with
  | some _ => .error Err.exist
  | none =>
    match stat fs (pathDir p) with
    | some Node.dir => .ok (fsPut fs p (some (Node.file 0o600 [])))
    | some (Node.file _ _) => .error Err.notDir
    | none => .error Err.notExist

/-- The function `fetch` of `main.go` (lines 168-196): the body of a 200
response is written to a new temporary file, whose name is returned. -/
def fetch (w : World) (fs : FS) (url token : Str) : Outcome Str :=
  match w.http url token with
  | none => ⟨.error Err.transport, fs⟩
  | some resp =>
    if resp.status ≠ 200 then ⟨.error (Err.status resp.status), fs⟩
    else
      match CreateTemp fs w.tempName with
      | .error e => ⟨.error e, fs⟩
      | .ok fs1 =>
        let fs2 := writeAll fs1 w.tempName resp.body
        if resp.bodyErr then ⟨.error Err.transport, fs2⟩
        else ⟨.ok w.tempName, fs2⟩

/-- How the process ends: `main` returns after printing the saved paths, or
`os.Exit` is called with a status, or a run-time panic stops it. -/
inductive Exit where
  | saved (produced : List Str)
  | status (code : Nat)
  | panicked
  deriving DecidableEq, Repr

/-- The end of a run and the file system it leaves. -/
structure Run where
  exit : Exit
  fs : FS

/-- The switch of `main` (lines 112-132) on the downloaded file `tmp`. -/
def store (w : World) (fs : FS) (filename tmp outDir : Str) : Outcome (List Str) :=
  match dispatch w.ToLower filename with
  | Strategy.tarGz => extractTarGz w.codec fs tmp outDir
  | Strategy.zip => extractZip w.codec fs tmp outDir
  | Strategy.plain =>
    let dst := pathJoin outDir (pathBase filename)
    match copyFile fs tmp dst 0o644 with
    | ⟨.error e, fs1⟩ => ⟨.error e, fs1⟩
    | ⟨.ok _, fs1⟩ => ⟨.ok [dst], fs1⟩

/-- The filename that `main` builds (lines 67-92): both substitutions, then
the three replacements; `none` is a run-time panic. -/
def filenameOf (fl : Flags) : Option Str :=
  match resolve fl.osFlag fl.osMapFlag, resolve fl.arch fl.archMapFlag with
  | some osSub, some archSub => some (resolveFilename fl.filePattern fl.version osSub archSub)
  | _, _ => none

/-- The download URL of `main` (line 94). -/
def urlOf (fl : Flags) (filename : Str) : Str :=
  "https://github.com/".toList ++ fl.repo ++ "/releases/download/".toList
    ++ fl.version ++ "/".toList ++ filename

/-- The function `main` of `main.go` from the check of the flags on (lines
54-141). `fatalf` ends the process by `os.Exit(1)`, which runs no deferred
call; the deferred `os.Remove(tmp)` runs when `main` returns. -/
def main (w : World) (fl : Flags) (fs : FS) : Run :=
  if fl.repo = [] ∨ fl.version = [] ∨ fl.filePattern = [] then ⟨Exit.status 2, fs⟩
  else
    match filenameOf fl with
    | none => ⟨Exit.panicked, fs⟩
    | some filename =>
      match MkdirAll fs fl.outDir with
      | .error _ => ⟨Exit.status 1, fs⟩
      | .ok fs1 =>
        match fetch w fs1 (urlOf fl filename) fl.token with
        | ⟨.error _, fs2⟩ => ⟨Exit.status 1, fs2⟩
        | ⟨.ok tmp, fs2⟩ =>
          match store w fs2 filename tmp fl.outDir with
          | ⟨.error _, fs3⟩ => ⟨Exit.status 1, fs3⟩
          | ⟨.ok produced, fs3⟩ => ⟨Exit.saved produced, Remove fs3 tmp⟩

/-! ## Archive entries and their two containers -/

/-- The kind of an archive entry that both formats have. -/
inductive Kind where
  | directory
  | regular
  deriving DecidableEq, Repr

/-- An archive entry: a directory or a regular file with its name, mode and
contents. -/
structure Entry where
  kind : Kind
  name : Str
  mode : Nat
  data : Bytes
  deriving DecidableEq, Repr

/-- The entry as the tar reader delivers it from a well-formed stream. -/
def Entry.toTar (e : Entry) : TarEntry :=
  { name := e.name
    typeflag := match e.kind with
      | Kind.directory => TypeDir
      | Kind.regular => TypeReg
    mode := e.mode
    data := e.data
    readErr := false }

/-- The entry as the zip reader lists it from a well-formed container. The
`Mode()` of `archive/zip` sets the directory bit of a file from its stored
attributes and, besides, for every name that ends in `/`: such a name is a
directory for `f.FileInfo().IsDir()` whatever the kind of the entry. -/
def Entry.toZip (e : Entry) : ZipFile :=
  { name := e.name
    isDir := (match e.kind with
      | Kind.directory => true
      | Kind.regular => false) || e.name.getLast? == some '/'
    mode := e.mode
    data := e.data
    openErr := false
    readErr := false }

/-- The tar stream that holds the entries. -/
def tarOf (entries : List Entry) : TarStream :=
  { entries := entries.map Entry.toTar, nextErr := false }

/-- The zip listing that holds the entries. -/
def zipOf (entries : List Entry) : List ZipFile := entries.map Entry.toZip

/-- The paths that a tar extraction into `outDir` reports: one for each
regular-file entry, in the order of the entries. -/
def regularPaths (outDir : Str) (entries : List TarEntry) : List Str :=
  (entries.filter (fun e => e.typeflag = TypeReg)).map (fun e => pathJoin outDir e.name)

/-- The `archive/zip` file read as the tar entry that `extractZip` treats it
as. -/
def ZipFile.asTar (f : ZipFile) : TarEntry :=
  { name := f.name
    typeflag := if f.isDir then TypeDir else TypeReg
    mode := f.mode
    data := f.data
    readErr := f.readErr }

/-- The second state has the directories of the first, and its regular
files with the same modes. -/
def Extends (fs fs' : FS) : Prop :=
  (∀ p, stat fs p = some Node.dir → stat fs' p = some Node.dir) ∧
  (∀ p m d, stat fs p = some (Node.file m d) → ∃ d', stat fs' p = some (Node.file m d'))

/-- The contents that the last regular-file entry written at the cleaned
path `q` carries, if an entry is written there. -/
def lastWrite (outDir : Str) : List TarEntry → Str → Option Bytes
  | [], _ => none
  | e :: rest, q =>
    match lastWrite outDir rest q with
    | some d => some d
    | none =>
      if e.typeflag = TypeReg ∧ pathClean (pathJoin outDir e.name) = q then some e.data
      else none

/-- An archive as one of the two readers delivers it. -/
inductive Archive where
  | tarGz (tr : TarStream)
  | zip (files : List ZipFile)

/-- The file at `path` opens as the archive `a`. -/
def opensAs (codec : Codec) (fs : FS) (path : Str) : Archive → Prop
  | Archive.tarGz tr => openTarGz codec fs path = .ok tr
  | Archive.zip files => openZip codec fs path = .ok files

instance (codec : Codec) (fs : FS) (path : Str) (a : Archive) :
    Decidable (opensAs codec fs path a) := by
  cases a <;> unfold opensAs <;> infer_instance

/-- The extraction of the file at `path` by the extractor of the format of
`a`. -/
def extractAs (codec : Codec) (fs : FS) (path outDir : Str) : Archive → Outcome (List Str)
  | Archive.tarGz _ => extractTarGz codec fs path outDir
  | Archive.zip _ => extractZip codec fs path outDir

/-- Every regular-file entry of the archive carries the owner-write
permission bit. -/
def ownerWritable : Archive → Prop
  | Archive.tarGz tr => ∀ e ∈ tr.entries, e.typeflag = TypeReg → ownerWrite (e.mode % 512) = true
  | Archive.zip files => ∀ f ∈ files, f.isDir = false → ownerWrite (f.mode % 512) = true

instance (a : Archive) : Decidable (ownerWritable a) := by
  cases a <;> unfold ownerWritable <;> infer_instance


/-! ## Example archives and states -/

/-- The archive of the round-trip scenario: the directory `a/` and the file
`a/b.txt` of mode `0o644` holding `hello`. -/
def helloEntries : List Entry :=
  [ { kind := Kind.directory, name := "a/".toList, mode := 0o755, data := [] },
    { kind := Kind.regular, name := "a/b.txt".toList, mode := 0o644,
      data := [104, 101, 108, 108, 111] } ]

/-- A tar stream with a symbolic link (type `2`) among other entries, one of
them written twice. -/
def mixedStream : TarStream :=
  { entries :=
      [ { name := "bin/".toList, typeflag := TypeDir, mode := 0o755, data := [], readErr := false },
        { name := "bin/tool".toList, typeflag := TypeReg, mode := 0o755, data := [1, 2],
          readErr := false },
        { name := "bin/latest".toList, typeflag := '2', mode := 0o777, data := [],
          readErr := false },
        { name := "bin/tool".toList, typeflag := TypeReg, mode := 0o755, data := [3],
          readErr := false } ]
    nextErr := false }

/-- An archive with one read-only regular file. -/
def readOnlyEntries : List Entry :=
  [ { kind := Kind.regular, name := "LICENSE".toList, mode := 0o444, data := [76] } ]

/-- An archive with a regular file whose name ends in `/`. -/
def slashEntries : List Entry :=
  [ { kind := Kind.regular, name := "a/".toList, mode := 0o644, data := [1] } ]

/-- An archive whose entry name climbs out of the output directory. -/
def escapingEntries : List Entry :=
  [ { kind := Kind.regular, name := "../evil.txt".toList, mode := 0o644, data := [120] } ]

/-- Decoders that know the example archives by the contents of their files. -/
def demoCodec : Codec :=
  { gunzipTar := fun bytes =>
      if bytes = [1] then some (tarOf helloEntries)
      else if bytes = [2] then some mixedStream
      else if bytes = [3] then some (tarOf readOnlyEntries)
      else if bytes = [4] then some (tarOf escapingEntries)
      else if bytes = [5] then some (tarOf slashEntries)
      else none
    unzip := fun bytes =>
      if bytes = [11] then some (zipOf helloEntries)
      else if bytes = [13] then some (zipOf readOnlyEntries)
      else if bytes = [14] then some (zipOf escapingEntries)
      else if bytes = [15] then some (zipOf slashEntries)
      else none }

/-- A file system holding the example archives in `/tmp`. -/
def demoFS : FS := fun p =>
  if p = "/tmp".toList then some Node.dir
  else if p = "/tmp/hello.tgz".toList then some (Node.file 0o600 [1])
  else if p = "/tmp/mixed.tgz".toList then some (Node.file 0o600 [2])
  else if p = "/tmp/ro.tgz".toList then some (Node.file 0o600 [3])
  else if p = "/tmp/esc.tgz".toList then some (Node.file 0o600 [4])
  else if p = "/tmp/hello.zip".toList then some (Node.file 0o600 [11])
  else if p = "/tmp/ro.zip".toList then some (Node.file 0o600 [13])
  else if p = "/tmp/esc.zip".toList then some (Node.file 0o600 [14])
  else if p = "/tmp/slash.tgz".toList then some (Node.file 0o600 [5])
  else if p = "/tmp/slash.zip".toList then some (Node.file 0o600 [15])
  else none

/-- A world whose server answers every request with a body that is no
archive, and whose temporary file is `/tmp/ghrelgrab-1`. -/
def demoWorld : World :=
  { ToLower := asciiLower
    codec := demoCodec
    http := fun _ _ => some { status := 200, body := [9], bodyErr := false }
    tempName := "/tmp/ghrelgrab-1".toList }

/-- The same world with a connection that breaks while the body is read. -/
def brokenWorld : World :=
  { demoWorld with http := fun _ _ => some { status := 200, body := [9], bodyErr := true } }

/-- The flags of a run for the asset `file` of release `v1` of `o/r`. -/
def demoFlags (file outDir : Str) : Flags :=
  { repo := "o/r".toList
    version := "v1".toList
    filePattern := file
    outDir := outDir
    osFlag := "linux".toList
    osMapFlag := []
    arch := "amd64".toList
    archMapFlag := []
    token := [] }

/-! # Properties -/

/-! ## Substitution resolver: well-formed specs (C1) -/

theorem Split_ne_nil (s : Str) (sep : Char) : Split s sep ≠ [] := by
  induction s with
  | nil => simp [Split]
  | cons c cs ih =>
    unfold Split
    split_ifs
    · simp
    · split <;> simp

theorem Split_append_sep (sep : Char) (p rest : Str) (hp : sep ∉ p) :
    Split (p ++ sep :: rest) sep = p :: Split rest sep := by
  induction p with
  | nil => simp [Split]
  | cons c cs ih =>
    have hc : c ≠ sep := fun h => hp (by simp [h])
    have hcs : sep ∉ cs := fun h => hp (by simp [h])
    simp [Split, hc, ih hcs]

theorem Split_noSep (sep : Char) (p : Str) (hp : sep ∉ p) : Split p sep = [p] := by
  induction p with
  | nil => simp [Split]
  | cons c cs ih =>
    have hc : c ≠ sep := fun h => hp (by simp [h])
    have hcs : sep ∉ cs := fun h => hp (by simp [h])
    simp [Split, hc, ih hcs]

theorem Split_Join (sep : Char) (ps : List Str) (hne : ps ≠ [])
    (hps : ∀ p ∈ ps, sep ∉ p) : Split (Join ps sep) sep = ps := by
  induction ps with
  | nil => exact absurd rfl hne
  | cons p rest ih =>
    cases rest with
    | nil => simpa [Join] using Split_noSep sep p (hps p (by simp))
    | cons q rest =>
      have h1 := ih (by simp) (fun x hx => hps x (List.mem_cons_of_mem _ hx))
      simp only [Join]
      rw [Split_append_sep sep p _ (hps p (by simp)), h1]

theorem dropWhile_space_eq_self (s : Str)
    (h : s.head?.map isSpace = some false) : s.dropWhile isSpace = s := by
  cases s with
  | nil => rfl
  | cons c cs =>
    have hc : isSpace c = false := by simpa using h
    simp [List.dropWhile, hc]

theorem rdropWhile_space_eq_self (s : Str)
    (h : s.getLast?.map isSpace = some false) : s.rdropWhile isSpace = s := by
  rcases List.eq_nil_or_concat s with rfl | ⟨l, x, rfl⟩
  · rfl
  · have hx : isSpace x = false := by simpa using h
    simp [List.rdropWhile_concat, hx]

theorem TrimSpace_Trimmed (s : Str) (h : Trimmed s) : TrimSpace s = s := by
  unfold TrimSpace
  rw [dropWhile_space_eq_self s h.2.1, rdropWhile_space_eq_self s h.2.2]

theorem Trimmed_pair (k v : Str) (hk : Trimmed k) (hv : Trimmed v) :
    Trimmed (k ++ '=' :: v) := by
  refine ⟨by simp, ?_, ?_⟩
  · cases k with
    | nil => exact absurd rfl hk.1
    | cons a k' => simpa using hk.2.1
  · rcases List.eq_nil_or_concat v with rfl | ⟨l, x, rfl⟩
    · exact absurd rfl hv.1
    · have h2 := hv.2.2
      simp only [List.concat_eq_append] at h2 ⊢
      have : k ++ '=' :: (l ++ [x]) = (k ++ '=' :: l) ++ [x] := by simp
      rw [this, List.getLast?_concat]
      rw [List.getLast?_concat] at h2
      exact h2

theorem takeWhile_ne_append (sep : Char) (k v : Str) (hk : sep ∉ k) :
    (k ++ sep :: v).takeWhile (fun c => c != sep) = k := by
  induction k with
  | nil => simp [List.takeWhile]
  | cons c cs ih =>
    have hc : c ≠ sep := fun h => hk (by simp [h])
    have hcs : sep ∉ cs := fun h => hk (by simp [h])
    have hc' : (c != sep) = true := by simp [hc]
    simp [List.takeWhile, hc', ih hcs]

theorem dropWhile_ne_append (sep : Char) (k v : Str) (hk : sep ∉ k) :
    (k ++ sep :: v).dropWhile (fun c => c != sep) = sep :: v := by
  induction k with
  | nil => simp [List.dropWhile]
  | cons c cs ih =>
    have hc : c ≠ sep := fun h => hk (by simp [h])
    have hcs : sep ∉ cs := fun h => hk (by simp [h])
    have hc' : (c != sep) = true := by simp [hc]
    simp [List.dropWhile, hc', ih hcs]

theorem SplitN2_pair (k v : Str) (hk : '=' ∉ k) : SplitN2 (k ++ '=' :: v) '=' = [k, v] := by
  simp [SplitN2, takeWhile_ne_append '=' k v hk, dropWhile_ne_append '=' k v hk]

theorem parseStep_pair (out : SubstMap) (kv : Str × Str) (h : WellFormedPair kv) :
    parseStep out (kv.1 ++ '=' :: kv.2) = some (mapSet out kv.1 kv.2) := by
  obtain ⟨hk, hv, -, -, he⟩ := h
  unfold parseStep
  simp only [TrimSpace_Trimmed _ (Trimmed_pair _ _ hk hv), SplitN2_pair _ _ he]
  simp [TrimSpace_Trimmed _ hk, TrimSpace_Trimmed _ hv, hk.1, hv.1]

theorem foldlM_parseStep_pairs (pairs : List (Str × Str)) (init : SubstMap)
    (hwf : ∀ kv ∈ pairs, WellFormedPair kv) :
    (pairs.map (fun kv => kv.1 ++ '=' :: kv.2)).foldlM parseStep init
      = some (pairs.foldl (fun m kv => mapSet m kv.1 kv.2) init) := by
  induction pairs generalizing init with
  | nil => rfl
  | cons kv rest ih =>
    simp only [List.map_cons, List.foldlM_cons, List.foldl_cons]
    rw [parseStep_pair init kv (hwf kv (by simp))]
    exact ih _ (fun x hx => hwf x (List.mem_cons_of_mem _ hx))

theorem mapGet_filter (m : SubstMap) (k d : Str) (h : k ≠ d) :
    mapGet (m.filter (fun kv => kv.1 != k)) d = mapGet m d := by
  induction m with
  | nil => rfl
  | cons x rest ih =>
    obtain ⟨a, b⟩ := x
    by_cases ha : a = k
    · have hf : ((a, b).1 != k) = false := by simp [ha]
      have had : a ≠ d := by rw [ha]; exact h
      rw [List.filter_cons_of_neg (by simp [ha]), ih]
      simp [mapGet, had]
    · rw [List.filter_cons_of_pos (by simp [ha])]
      simp [mapGet, ih]

theorem mapGet_mapSet (m : SubstMap) (k v d : Str) :
    mapGet (mapSet m k v) d = if k = d then some v else mapGet m d := by
  unfold mapSet
  by_cases h : k = d
  · simp [mapGet, h]
  · simp [mapGet, h, mapGet_filter m k d h]

theorem get_foldl_absent (l : List (Str × Str)) (init : SubstMap) (d : Str)
    (h : ∀ kv ∈ l, kv.1 ≠ d) :
    mapGet (l.foldl (fun m kv => mapSet m kv.1 kv.2) init) d = mapGet init d := by
  induction l generalizing init with
  | nil => rfl
  | cons kv rest ih =>
    simp only [List.foldl_cons]
    rw [ih _ (fun x hx => h x (List.mem_cons_of_mem _ hx)), mapGet_mapSet]
    simp [h kv (by simp)]

theorem get_foldl_last (l1 l2 : List (Str × Str)) (kv : Str × Str) (init : SubstMap)
    (h : ∀ x ∈ l2, x.1 ≠ kv.1) :
    mapGet ((l1 ++ kv :: l2).foldl (fun m kv => mapSet m kv.1 kv.2) init) kv.1 = some kv.2 := by
  rw [List.foldl_append, List.foldl_cons, get_foldl_absent l2 _ _ h, mapGet_mapSet]
  simp

theorem specOf_ne_nil (pairs : List (Str × Str)) (h : pairs ≠ []) : specOf pairs ≠ [] := by
  cases pairs with
  | nil => exact absurd rfl h
  | cons kv rest =>
    cases rest with
    | nil => simp [specOf, Join]
    | cons kv2 rest => simp [specOf, Join]

theorem parseSubstMap_specOf (pairs : List (Str × Str))
    (hwf : ∀ kv ∈ pairs, WellFormedPair kv) :
    parseSubstMap (specOf pairs) = some (pairs.foldl (fun m kv => mapSet m kv.1 kv.2) []) := by
  cases hp : pairs with
  | nil => simp [specOf, Join, parseSubstMap]
  | cons kv rest =>
    rw [← hp]
    unfold parseSubstMap
    rw [if_neg (specOf_ne_nil pairs (by simp [hp]))]
    unfold specOf
    rw [Split_Join ',' _ (by simp [hp])]
    · exact foldlM_parseStep_pairs pairs [] hwf
    · intro p hp'
      obtain ⟨x, hx, rfl⟩ := List.mem_map.1 hp'
      obtain ⟨-, -, h1, h2, -⟩ := hwf x hx
      simp [h1, h2]

/-- C1: a spec string of well-formed pairs resolves a detected value to the
value of the last pair whose key it is, and to itself when it is no key. -/
theorem resolve_wellFormed (d : Str) (pairs : List (Str × Str))
    (hwf : ∀ kv ∈ pairs, WellFormedPair kv) :
    (∀ (j : Nat) (hj : j < pairs.length), (pairs.get ⟨j, hj⟩).1 = d →
        (∀ (i : Nat) (hi : i < pairs.length), j < i → (pairs.get ⟨i, hi⟩).1 ≠ d) →
        resolve d (specOf pairs) = some (pairs.get ⟨j, hj⟩).2) ∧
    ((∀ kv ∈ pairs, kv.1 ≠ d) → resolve d (specOf pairs) = some d) := by
  constructor
  · intro j hj hkey hlast
    have hsplit : pairs = pairs.take j ++ pairs.get ⟨j, hj⟩ :: pairs.drop (j + 1) := by
      simp
    have hrest : ∀ x ∈ pairs.drop (j + 1), x.1 ≠ (pairs.get ⟨j, hj⟩).1 := by
      intro x hx
      obtain ⟨n, hn, rfl⟩ := List.mem_iff_getElem.1 hx
      rw [hkey, List.getElem_drop]
      simp only [List.length_drop] at hn
      exact hlast (j + 1 + n) (by omega) (by omega)
    have hget := get_foldl_last (pairs.take j) (pairs.drop (j + 1)) (pairs.get ⟨j, hj⟩) [] hrest
    rw [← hsplit, hkey] at hget
    simp [resolve, parseSubstMap_specOf pairs hwf, hget]
  · intro habs
    have hget := get_foldl_absent pairs [] d habs
    simp [resolve, parseSubstMap_specOf pairs hwf, hget, mapGet]

/-- An instance of C1: a duplicated key, a value with an equals sign, an absent key. -/
theorem resolve_wellFormed_witness :
    resolve "linux".toList "linux=ubuntu,arm=x=y,linux=debian".toList = some "debian".toList ∧
    resolve "arm".toList "linux=ubuntu,arm=x=y,linux=debian".toList = some "x=y".toList ∧
    resolve "darwin".toList "linux=ubuntu,arm=x=y,linux=debian".toList = some "darwin".toList :=
  have hwf : ∀ kv ∈ [("linux".toList, "ubuntu".toList), ("arm".toList, "x=y".toList),
      ("linux".toList, "debian".toList)], WellFormedPair kv := by decide
  ⟨(resolve_wellFormed "linux".toList _ hwf).1 2 (by decide) rfl (by decide),
   (resolve_wellFormed "arm".toList _ hwf).1 1 (by decide) rfl (by decide),
   (resolve_wellFormed "darwin".toList _ hwf).2 (by decide)⟩
/-! ## Substitution resolver: malformed pieces (C6) -/

theorem isSpace_eq_false : isSpace '=' = false := by decide

theorem dropWhile_append_stop (p : Char → Bool) (a b : Str) (c : Char) (hc : p c = false) :
    (a ++ c :: b).dropWhile p = a.dropWhile p ++ c :: b := by
  induction a with
  | nil => simp [List.dropWhile, hc]
  | cons x xs ih =>
    by_cases hx : p x = true
    · simp [List.dropWhile, hx, ih]
    · have hx' : p x = false := by simpa using hx
      simp [List.dropWhile, hx']

theorem rdropWhile_append_stop (p : Char → Bool) (a b : Str) (c : Char) (hc : p c = false) :
    (a ++ c :: b).rdropWhile p = a ++ c :: b.rdropWhile p := by
  unfold List.rdropWhile
  rw [List.reverse_append, List.reverse_cons, List.append_assoc, List.singleton_append,
    dropWhile_append_stop p _ _ c hc]
  simp

theorem TrimSpace_cut (a b : Str) :
    TrimSpace (a ++ '=' :: b) = a.dropWhile isSpace ++ '=' :: b.rdropWhile isSpace := by
  unfold TrimSpace
  rw [dropWhile_append_stop isSpace a b '=' isSpace_eq_false,
    rdropWhile_append_stop isSpace _ b '=' isSpace_eq_false]

theorem TrimSpace_sublist (s : Str) : (TrimSpace s).Sublist s := by
  unfold TrimSpace
  exact ((List.rdropWhile_prefix _ _).sublist).trans (List.dropWhile_sublist _)

theorem TrimSpace_eq_nil_of_all (s : Str) (h : ∀ c ∈ s, isSpace c = true) :
    TrimSpace s = [] := by
  unfold TrimSpace
  rw [List.rdropWhile_eq_nil_iff]
  intro x hx
  exact h x ((List.dropWhile_sublist _).subset hx)

theorem all_of_TrimSpace_eq_nil (s : Str) (h : TrimSpace s = []) :
    ∀ c ∈ s, isSpace c = true := by
  unfold TrimSpace at h
  rw [List.rdropWhile_eq_nil_iff] at h
  intro c hc
  rw [← List.takeWhile_append_dropWhile isSpace s] at hc
  rcases List.mem_append.1 hc with h1 | h1
  · exact (List.mem_takeWhile_imp h1)
  · exact h c h1

theorem cut_at_eq (m : Str) (h : '=' ∈ m) :
    m = m.takeWhile (fun c => c != '=') ++
      '=' :: (m.dropWhile (fun c => c != '=')).tail := by
  induction m with
  | nil => simp at h
  | cons x xs ih =>
    by_cases hx : x = '='
    · subst hx
      simp [List.takeWhile, List.dropWhile]
    · have hx' : (x != '=') = true := by simp [hx]
      have hm : '=' ∈ xs := by
        rcases List.mem_cons.1 h with h1 | h1
        · exact absurd h1.symm hx
        · exact h1
      simp only [List.takeWhile, List.dropWhile, hx', List.cons_append]
      rw [← ih hm]

theorem parseStep_malformed (out : SubstMap) (m : Str) (h : Malformed m) :
    parseStep out m = some out := by
  by_cases hm : '=' ∈ m
  · have hcut := cut_at_eq m hm
    unfold Malformed at h
    have hnot : '=' ∉ m.takeWhile (fun c => c != '=') := by
      intro hin
      have := List.mem_takeWhile_imp hin
      simp at this
    generalize m.takeWhile (fun c => c != '=') = a at hcut hnot h
    generalize (m.dropWhile (fun c => c != '=')).tail = b at hcut h
    have hside : TrimSpace a = [] ∨ TrimSpace b = [] := by
      rcases h with h | h | h
      · exact absurd hm h
      · exact Or.inl h
      · exact Or.inr h
    have hnot' : '=' ∉ a.dropWhile isSpace :=
      fun hin => hnot ((List.dropWhile_sublist _).subset hin)
    unfold parseStep
    simp only [hcut, TrimSpace_cut, SplitN2_pair _ _ hnot']
    rcases hside with h1 | h1
    · have hk : TrimSpace (a.dropWhile isSpace) = [] :=
        TrimSpace_eq_nil_of_all _ (fun c hc =>
          all_of_TrimSpace_eq_nil a h1 c ((List.dropWhile_sublist _).subset hc))
      simp [hk]
    · have hv : TrimSpace (b.rdropWhile isSpace) = [] :=
        TrimSpace_eq_nil_of_all _ (fun c hc =>
          all_of_TrimSpace_eq_nil b h1 c ((List.rdropWhile_prefix _ _).sublist.subset hc))
      simp [hv]
  · have hm' : '=' ∉ TrimSpace m := fun hin => hm ((TrimSpace_sublist m).subset hin)
    have hd : (TrimSpace m).dropWhile (fun c => c != '=') = [] := by
      rw [List.dropWhile_eq_nil_iff]
      intro x hx
      have : x ≠ '=' := fun hxe => hm' (hxe ▸ hx)
      simp [this]
    unfold parseStep
    simp [SplitN2, hd]

theorem parseStep_total (out : SubstMap) (p : Str) : ∃ out', parseStep out p = some out' := by
  unfold parseStep
  simp only []
  split_ifs with h1 h2
  · exact ⟨out, rfl⟩
  · exact ⟨out, rfl⟩
  · have h2' : (SplitN2 (TrimSpace p) '=').length = 2 := by simpa using h2
    obtain ⟨x, y, hxy⟩ := List.length_eq_two.1 h2'
    rw [hxy]
    simp only [List.get?_cons_zero, List.get?_cons_succ, Option.bind_eq_bind, Option.some_bind]
    split_ifs
    · exact ⟨_, rfl⟩
    · exact ⟨_, rfl⟩

theorem foldlM_parseStep_total (ps : List Str) (init : SubstMap) :
    ∃ out, ps.foldlM parseStep init = some out := by
  induction ps generalizing init with
  | nil => exact ⟨init, rfl⟩
  | cons p rest ih =>
    obtain ⟨o, ho⟩ := parseStep_total init p
    obtain ⟨o', ho'⟩ := ih o
    exact ⟨o', by simp [List.foldlM_cons, ho, ho']⟩

theorem foldlM_insertPiece (ps : List Str) (i : Nat) (m : Str) (init : SubstMap)
    (h : Malformed m) :
    (insertPiece ps i m).foldlM parseStep init = ps.foldlM parseStep init := by
  unfold insertPiece
  conv_rhs => rw [← List.take_append_drop i ps]
  rw [List.foldlM_append, List.foldlM_append]
  congr 1
  funext x
  simp [List.foldlM_cons, parseStep_malformed x m h]

theorem Join_eq_nil (ps : List Str) (sep : Char) (h : Join ps sep = []) :
    ps = [] ∨ ps = [[]] := by
  cases ps with
  | nil => exact Or.inl rfl
  | cons p rest =>
    cases rest with
    | nil => right; simpa [Join] using h
    | cons q rest => simp [Join] at h

theorem parseSubstMap_Join (ps : List Str) (hps : ∀ p ∈ ps, ',' ∉ p) :
    parseSubstMap (Join ps ',') = ps.foldlM parseStep [] := by
  unfold parseSubstMap
  split_ifs with h
  · rcases Join_eq_nil ps ',' h with rfl | rfl
    · rfl
    · rfl
  · have hne : ps ≠ [] := by
      rintro rfl
      exact h rfl
    rw [Split_Join ',' ps hne hps]

/-- C6: a malformed piece without comma inserted anywhere among the pieces of
an override spec leaves the parsed map unchanged, and `parseSubstMap` returns
a map for every input string. -/
theorem parseSubstMap_malformed_piece (ps : List Str) (m : Str) (i : Nat)
    (hps : ∀ p ∈ ps, ',' ∉ p) (hm : ',' ∉ m) (hmal : Malformed m) :
    parseSubstMap (Join (insertPiece ps i m) ',') = parseSubstMap (Join ps ',') ∧
    ∀ s : Str, ∃ out, parseSubstMap s = some out := by
  constructor
  · have hins : ∀ p ∈ insertPiece ps i m, ',' ∉ p := by
      intro p hp
      unfold insertPiece at hp
      rcases List.mem_append.1 hp with h1 | h1
      · exact hps p (List.mem_of_mem_take h1)
      · rcases List.mem_cons.1 h1 with h2 | h2
        · exact h2 ▸ hm
        · exact hps p (List.mem_of_mem_drop h2)
    rw [parseSubstMap_Join _ hins, parseSubstMap_Join _ hps, foldlM_insertPiece ps i m [] hmal]
  · intro s
    unfold parseSubstMap
    split_ifs
    · exact ⟨[], rfl⟩
    · exact foldlM_parseStep_total _ _

/-- An instance of C6: a piece with an empty key between two pairs. -/
theorem parseSubstMap_malformed_piece_witness :
    parseSubstMap "a=b, =x,c=d".toList = parseSubstMap "a=b,c=d".toList ∧
    ∀ s : Str, ∃ out, parseSubstMap s = some out :=
  parseSubstMap_malformed_piece ["a=b".toList, "c=d".toList] " =x".toList 1
    (by decide) (by decide) (by decide)

/-! ## Format dispatch (C3) -/

theorem HasSuffix_iff (s suf : Str) : HasSuffix s suf = true ↔ suf <:+ s := by
  unfold HasSuffix
  rw [List.suffix_iff_eq_drop]
  constructor
  · intro h
    simp only [Bool.and_eq_true, decide_eq_true_eq, beq_iff_eq] at h
    exact h.2.symm
  · intro h
    simp only [Bool.and_eq_true, decide_eq_true_eq, beq_iff_eq]
    refine ⟨?_, h.symm⟩
    have := congrArg List.length h
    simp at this
    omega

theorem HasSuffix_getLast (s suf : Str) (hne : suf ≠ []) (h : HasSuffix s suf = true) :
    s.getLast? = suf.getLast? := by
  obtain ⟨pre, rfl⟩ := (HasSuffix_iff s suf).1 h
  rcases List.eq_nil_or_concat suf with rfl | ⟨l, x, rfl⟩
  · exact absurd rfl hne
  · simp only [List.concat_eq_append]
    rw [← List.append_assoc, List.getLast?_concat, List.getLast?_concat]

theorem zip_not_tar (s : Str) (h : HasSuffix s ".zip".toList = true) :
    HasSuffix s ".tar.gz".toList = false ∧ HasSuffix s ".tgz".toList = false := by
  have h1 := HasSuffix_getLast s ".zip".toList (by decide) h
  constructor
  · by_contra hc
    have h2 := HasSuffix_getLast s ".tar.gz".toList (by decide) (by simpa using hc)
    rw [h1] at h2
    revert h2
    decide
  · by_contra hc
    have h2 := HasSuffix_getLast s ".tgz".toList (by decide) (by simpa using hc)
    rw [h1] at h2
    revert h2
    decide

/-- C3: the dispatch chooses tar+gzip exactly for the lowercased names ending
in `.tar.gz` or `.tgz`, zip exactly for those ending in `.zip`, plain copy
exactly for the others, and the same for two names with one lowercase form. -/
theorem dispatch_by_suffix (ToLower : Str → Str) (f g : Str) (h : ToLower f = ToLower g) :
    (dispatch ToLower f = Strategy.tarGz ↔
      (HasSuffix (ToLower f) ".tar.gz".toList = true ∨
        HasSuffix (ToLower f) ".tgz".toList = true)) ∧
    (dispatch ToLower f = Strategy.zip ↔ HasSuffix (ToLower f) ".zip".toList = true) ∧
    (dispatch ToLower f = Strategy.plain ↔
      (HasSuffix (ToLower f) ".tar.gz".toList = false ∧
        HasSuffix (ToLower f) ".tgz".toList = false ∧
        HasSuffix (ToLower f) ".zip".toList = false)) ∧
    dispatch ToLower f = dispatch ToLower g := by
  have hz := zip_not_tar (ToLower f)
  refine ⟨?_, ?_, ?_, ?_⟩
  · unfold dispatch
    simp only []
    generalize HasSuffix (ToLower f) ".tar.gz".toList = a
    generalize HasSuffix (ToLower f) ".tgz".toList = b
    generalize HasSuffix (ToLower f) ".zip".toList = c
    cases a <;> cases b <;> cases c <;> simp
  · unfold dispatch
    simp only []
    revert hz
    generalize HasSuffix (ToLower f) ".tar.gz".toList = a
    generalize HasSuffix (ToLower f) ".tgz".toList = b
    generalize HasSuffix (ToLower f) ".zip".toList = c
    cases a <;> cases b <;> cases c <;> simp
  · unfold dispatch
    simp only []
    generalize HasSuffix (ToLower f) ".tar.gz".toList = a
    generalize HasSuffix (ToLower f) ".tgz".toList = b
    generalize HasSuffix (ToLower f) ".zip".toList = c
    cases a <;> cases b <;> cases c <;> simp
  · unfold dispatch
    rw [h]

/-- An instance of C3: an upper-case name and its lower-case form. -/
theorem dispatch_by_suffix_witness :
    dispatch asciiLower "FOO.TAR.GZ".toList = Strategy.tarGz ∧
    dispatch asciiLower "FOO.TAR.GZ".toList = dispatch asciiLower "foo.tar.gz".toList :=
  have h := dispatch_by_suffix asciiLower "FOO.TAR.GZ".toList "foo.tar.gz".toList (by decide)
  ⟨h.1.2 (Or.inl (by decide)), h.2.2.2⟩
/-! ## Template expansion and the order of the replacements (C2) -/

theorem replaceFrom_skip (old new : Str) (xs ys : Str) :
    replaceFrom old new xs.length (xs ++ ys) = replaceFrom old new 0 ys := by
  induction xs with
  | nil => rfl
  | cons x xs ih =>
    show replaceFrom old new (xs.length + 1) (x :: (xs ++ ys)) = _
    rw [replaceFrom]
    exact ih

theorem isPrefixOf_token_false (p : Placeholder) (c : Char) (cs : Str) (h : c ≠ '{') :
    p.token.isPrefixOf (c :: cs) = false := by
  have h' : ('{' == c) = false := by simp [Ne.symm h]
  cases p <;> simp [Placeholder.token, List.isPrefixOf, h']

theorem replaceFrom_lits (p : Placeholder) (new : Str) (l rest : Str) (h : '{' ∉ l) :
    replaceFrom p.token new 0 (l ++ rest) = l ++ replaceFrom p.token new 0 rest := by
  induction l with
  | nil => rfl
  | cons c cs ih =>
    have hc : c ≠ '{' := fun e => h (by simp [e])
    have hcs : '{' ∉ cs := fun e => h (by simp [e])
    simp only [List.cons_append, replaceFrom, isPrefixOf_token_false p c _ hc]
    simp [ih hcs]

theorem replaceFrom_token (p q : Placeholder) (new rest : Str) :
    replaceFrom p.token new 0 (q.token ++ rest) =
      (if q = p then new else q.token) ++ replaceFrom p.token new 0 rest := by
  by_cases hqp : q = p
  · subst hqp
    simp only [if_true]
    have hpre : q.token.isPrefixOf (q.token ++ rest) = true := by
      rw [List.isPrefixOf_iff_prefix]; exact List.prefix_append _ _
    obtain ⟨c, cs, hcs⟩ : ∃ c cs, q.token = c :: cs := by
      cases q <;> exact ⟨_, _, rfl⟩
    have hlen : q.token.length - 1 = cs.length := by simp [hcs]
    have hstep : replaceFrom q.token new 0 (c :: (cs ++ rest)) =
        new ++ replaceFrom q.token new (q.token.length - 1) (cs ++ rest) := by
      have hpre' : q.token.isPrefixOf (c :: (cs ++ rest)) = true := by
        rw [← List.cons_append, ← hcs]; exact hpre
      simp [replaceFrom, hpre']
    rw [show q.token ++ rest = c :: (cs ++ rest) by rw [hcs]; rfl, hstep, hlen,
      replaceFrom_skip]
  · simp only [if_neg hqp]
    have key : ∀ (l : Str), q.token = '{' :: l → '{' ∉ l →
        p.token.isPrefixOf ('{' :: (l ++ rest)) = false →
        replaceFrom p.token new 0 (q.token ++ rest)
          = q.token ++ replaceFrom p.token new 0 rest := by
      intro l hl hnot hpre
      rw [hl]
      show replaceFrom p.token new 0 ('{' :: (l ++ rest)) = _
      rw [replaceFrom, if_neg (by simp [hpre]), replaceFrom_lits p new l rest hnot]
      rfl
    cases p <;> cases q <;> first
      | exact absurd rfl hqp
      | exact key _ rfl (by decide) (by simp [Placeholder.token, List.isPrefixOf])

theorem GoodSegs_cons (s : Seg) (segs : List Seg) (h : GoodSegs (s :: segs)) : GoodSegs segs :=
  fun c hc => h c (List.mem_cons_of_mem _ hc)

theorem render_cons (s : Seg) (segs : List Seg) : render (s :: segs) = s.text ++ render segs := by
  simp [render]

theorem render_append (a b : List Seg) : render (a ++ b) = render a ++ render b := by
  simp [render]

theorem render_lits (v : Str) : render (v.map Seg.lit) = v := by
  induction v with
  | nil => rfl
  | cons c cs ih => rw [List.map_cons, render_cons, ih]; rfl

theorem substSeg_cons (p : Placeholder) (v : Str) (s : Seg) (segs : List Seg) :
    substSeg p v (s :: segs) =
      (if s = Seg.tok p then v.map Seg.lit else [s]) ++ substSeg p v segs := by
  simp [substSeg]

theorem replaceFrom_render (p : Placeholder) (v : Str) (segs : List Seg) (hg : GoodSegs segs) :
    replaceFrom p.token v 0 (render segs) = render (substSeg p v segs) := by
  induction segs with
  | nil => rfl
  | cons s rest ih =>
    have ih' := ih (GoodSegs_cons s rest hg)
    rw [render_cons, substSeg_cons, render_append, ← ih']
    cases s with
    | lit c =>
      have hc : c ≠ '{' := hg c (by simp)
      simp only [Seg.text, List.singleton_append, replaceFrom, isPrefixOf_token_false p c _ hc]
      simp [render, Seg.text]
    | tok q =>
      simp only [Seg.text]
      rw [replaceFrom_token]
      by_cases hqp : q = p
      · simp [hqp, render_lits]
      · have : Seg.tok q ≠ Seg.tok p := fun e => hqp (Seg.tok.inj e)
        simp [hqp, this, render, Seg.text]
theorem ReplaceAll_render (p : Placeholder) (v : Str) (segs : List Seg) (hg : GoodSegs segs)
    (hv : '{' ∉ v) : ReplaceAll (render segs) p.token v = render (substSeg p v segs) := by
  have h1 : p.token ≠ v := by
    intro e
    apply hv
    rw [← e]
    cases p <;> decide
  have h2 : p.token ≠ [] := by cases p <;> decide
  unfold ReplaceAll
  rw [if_neg h1, if_neg h2]
  exact replaceFrom_render p v segs hg

theorem GoodSegs_substSeg (p : Placeholder) (v : Str) (segs : List Seg) (hg : GoodSegs segs)
    (hv : '{' ∉ v) : GoodSegs (substSeg p v segs) := by
  intro c hc
  unfold substSeg at hc
  obtain ⟨s, hs, hcs⟩ := List.mem_flatMap.1 hc
  split_ifs at hcs with h
  · obtain ⟨x, hx, hxe⟩ := List.mem_map.1 hcs
    have : x = c := Seg.lit.inj hxe
    rw [← this]
    exact fun e => hv (e ▸ hx)
  · have : Seg.lit c = s := by simpa using hcs
    exact hg c (this ▸ hs)

theorem substSeg_append (p : Placeholder) (v : Str) (a b : List Seg) :
    substSeg p v (a ++ b) = substSeg p v a ++ substSeg p v b := by
  simp [substSeg]

theorem substSeg_lits (p : Placeholder) (v w : Str) :
    substSeg p v (w.map Seg.lit) = w.map Seg.lit := by
  induction w with
  | nil => rfl
  | cons c cs ih =>
    rw [List.map_cons, substSeg_cons, ih]
    simp

theorem substSeg_comm (p q : Placeholder) (v w : Str) (segs : List Seg) (hpq : p ≠ q) :
    substSeg p v (substSeg q w segs) = substSeg q w (substSeg p v segs) := by
  induction segs with
  | nil => rfl
  | cons s rest ih =>
    rw [substSeg_cons q, substSeg_cons p, substSeg_append, substSeg_append, ih]
    congr 1
    by_cases h1 : s = Seg.tok q
    · have h2 : s ≠ Seg.tok p := by
        rw [h1]; exact fun e => hpq (Seg.tok.inj e).symm
      rw [if_pos h1, if_neg h2, substSeg_lits]
      simp [substSeg, h1]
    · rw [if_neg h1]
      by_cases h2 : s = Seg.tok p
      · rw [if_pos h2, substSeg_lits]
        simp [substSeg, h2]
      · rw [if_neg h2]
        simp [substSeg, h1, h2]

theorem placeholdersOnly_tail (c : Char) (cs : Str) (h : placeholdersOnly (c :: cs) = true) :
    placeholdersOnly cs = true := by
  unfold placeholdersOnly at h
  simp only [Bool.and_eq_true] at h
  exact h.2

theorem placeholdersOnly_drop (xs ys : Str) (h : placeholdersOnly (xs ++ ys) = true) :
    placeholdersOnly ys = true := by
  induction xs with
  | nil => exact h
  | cons x xs ih => exact ih (placeholdersOnly_tail x _ h)

theorem placeholdersOnly_brace (cs : Str) (h : placeholdersOnly ('{' :: cs) = true) :
    ∃ (p : Placeholder) (rest : Str), '{' :: cs = p.token ++ rest := by
  unfold placeholdersOnly at h
  simp only [Bool.and_eq_true, Bool.or_eq_true, bne_self_eq_false, Bool.false_eq_true,
    false_or] at h
  rcases h.1 with (h1 | h1) | h1
  · obtain ⟨r, hr⟩ := List.isPrefixOf_iff_prefix.1 h1
    exact ⟨Placeholder.version, r, hr.symm⟩
  · obtain ⟨r, hr⟩ := List.isPrefixOf_iff_prefix.1 h1
    exact ⟨Placeholder.os, r, hr.symm⟩
  · obtain ⟨r, hr⟩ := List.isPrefixOf_iff_prefix.1 h1
    exact ⟨Placeholder.arch, r, hr.symm⟩

theorem exists_segs (n : Nat) : ∀ (t : Str), t.length ≤ n → placeholdersOnly t = true →
    ∃ segs, GoodSegs segs ∧ render segs = t := by
  induction n with
  | zero =>
    intro t ht _
    have : t = [] := List.length_eq_zero.1 (Nat.le_zero.1 ht)
    exact ⟨[], fun c hc => by simp at hc, by rw [this]; rfl⟩
  | succ n ih =>
    intro t ht hok
    cases t with
    | nil => exact ⟨[], fun c hc => by simp at hc, rfl⟩
    | cons c cs =>
      by_cases hc : c = '{'
      · subst hc
        obtain ⟨p, rest, hrest⟩ := placeholdersOnly_brace cs hok
        have hlen : rest.length ≤ n := by
          have h1 := congrArg List.length hrest
          have h2 : 0 < p.token.length := by cases p <;> decide
          simp only [List.length_cons, List.length_append] at h1 ht
          omega
        have hok' : placeholdersOnly rest = true := by
          rw [hrest] at hok
          exact placeholdersOnly_drop _ _ hok
        obtain ⟨segs, hg, hr⟩ := ih rest hlen hok'
        refine ⟨Seg.tok p :: segs, ?_, ?_⟩
        · intro x hx
          rcases List.mem_cons.1 hx with h1 | h1
          · cases h1
          · exact hg x h1
        · rw [render_cons, hr, hrest]; rfl
      · have hlen : cs.length ≤ n := by
          simp only [List.length_cons] at ht
          omega
        obtain ⟨segs, hg, hr⟩ := ih cs hlen (placeholdersOnly_tail c cs hok)
        refine ⟨Seg.lit c :: segs, ?_, ?_⟩
        · intro x hx
          rcases List.mem_cons.1 hx with h1 | h1
          · rw [Seg.lit.inj h1]; exact hc
          · exact hg x h1
        · rw [render_cons, hr]; rfl

theorem resolveInOrder_render (p q r : Placeholder) (segs : List Seg) (version osSub archSub : Str)
    (hg : GoodSegs segs) (hv : '{' ∉ version) (ho : '{' ∉ osSub) (ha : '{' ∉ archSub) :
    resolveInOrder p q r (render segs) version osSub archSub =
      render (substSeg r (Placeholder.value version osSub archSub r)
        (substSeg q (Placeholder.value version osSub archSub q)
          (substSeg p (Placeholder.value version osSub archSub p) segs))) := by
  have hval : ∀ x : Placeholder, '{' ∉ Placeholder.value version osSub archSub x := by
    intro x; cases x <;> assumption
  unfold resolveInOrder
  simp only []
  rw [ReplaceAll_render p _ segs hg (hval p),
    ReplaceAll_render q _ _ (GoodSegs_substSeg p _ segs hg (hval p)) (hval q),
    ReplaceAll_render r _ _
      (GoodSegs_substSeg q _ _ (GoodSegs_substSeg p _ segs hg (hval p)) (hval q)) (hval r)]

theorem resolveFilename_eq (t version osSub archSub : Str) :
    resolveFilename t version osSub archSub =
      resolveInOrder Placeholder.version Placeholder.os Placeholder.arch t version osSub archSub :=
  rfl

/-- C2 (amended): when every `{` of the template begins a placeholder and no
value of the context holds a `{`, the three replacements give, in each of the
six orders, the filename that the program computes. -/
theorem resolveFilename_order_irrelevant (p q r : Placeholder)
    (filePattern version osSub archSub : Str)
    (hpq : p ≠ q) (hqr : q ≠ r) (hpr : p ≠ r)
    (ht : placeholdersOnly filePattern = true)
    (hv : '{' ∉ version) (ho : '{' ∉ osSub) (ha : '{' ∉ archSub) :
    resolveInOrder p q r filePattern version osSub archSub =
      resolveFilename filePattern version osSub archSub := by
  obtain ⟨segs, hg, rfl⟩ := exists_segs filePattern.length filePattern (Nat.le_refl _) ht
  rw [resolveFilename_eq, resolveInOrder_render p q r segs _ _ _ hg hv ho ha,
    resolveInOrder_render _ _ _ segs _ _ _ hg hv ho ha]
  congr 1
  have c1 := fun v w l => substSeg_comm Placeholder.version Placeholder.os v w l (by decide)
  have c2 := fun v w l => substSeg_comm Placeholder.version Placeholder.arch v w l (by decide)
  have c3 := fun v w l => substSeg_comm Placeholder.os Placeholder.arch v w l (by decide)
  cases p <;> cases q <;> cases r <;> first
    | exact absurd rfl hpq
    | exact absurd rfl hqr
    | exact absurd rfl hpr
    | rfl
    | simp only [c1, c2, c3]

/-- An instance of the amended C2: the order arch, version, os on a usual template. -/
theorem resolveFilename_order_irrelevant_witness :
    resolveInOrder Placeholder.arch Placeholder.version Placeholder.os
        "tool-{version}-{os}-{arch}.tar.gz".toList "v1.2.3".toList "linux".toList "amd64".toList =
      resolveFilename "tool-{version}-{os}-{arch}.tar.gz".toList "v1.2.3".toList
        "linux".toList "amd64".toList :=
  resolveFilename_order_irrelevant Placeholder.arch Placeholder.version Placeholder.os
    "tool-{version}-{os}-{arch}.tar.gz".toList "v1.2.3".toList "linux".toList "amd64".toList
    (by decide) (by decide) (by decide) (by decide) (by decide) (by decide) (by decide)

/-- C2 as stated fails: a value that holds a placeholder, or a template with a
brace outside a placeholder, makes the result depend on the order. -/
theorem resolveFilename_order_matters :
    resolveInOrder Placeholder.os Placeholder.version Placeholder.arch
        "{version}".toList "{os}".toList "linux".toList "amd64".toList ≠
      resolveFilename "{version}".toList "{os}".toList "linux".toList "amd64".toList ∧
    resolveInOrder Placeholder.arch Placeholder.os Placeholder.version
        "{ar{os}h}".toList "v1".toList "c".toList "amd64".toList ≠
      resolveFilename "{ar{os}h}".toList "v1".toList "c".toList "amd64".toList := by
  decide
/-! ## File system operations -/

theorem stat_fsPut (fs : FS) (p q : Str) (n : Option Node) :
    stat (fsPut fs p n) q = if isAnchor q then some Node.dir else if q = p then n else fs q := by
  unfold stat fsPut
  split_ifs <;> rfl

theorem stat_fsPut_ne (fs : FS) (p q : Str) (n : Option Node) (h : q ≠ p) :
    stat (fsPut fs p n) q = stat fs q := by
  rw [stat_fsPut]
  unfold stat
  simp [h]

theorem stat_fsPut_self (fs : FS) (p : Str) (n : Option Node) (h : isAnchor p = false) :
    stat (fsPut fs p n) p = n := by
  rw [stat_fsPut]
  simp [h]

theorem stat_none_not_anchor (fs : FS) (p : Str) (h : stat fs p = none) : isAnchor p = false := by
  unfold stat at h
  by_contra hc
  simp only [Bool.not_eq_false] at hc
  simp [hc] at h

theorem stat_file_not_anchor (fs : FS) (p : Str) (m : Nat) (d : Bytes)
    (h : stat fs p = some (Node.file m d)) : isAnchor p = false := by
  unfold stat at h
  by_contra hc
  simp only [Bool.not_eq_false] at hc
  simp [hc] at h

theorem fsPut_fsPut (fs : FS) (p : Str) (a b : Option Node) :
    fsPut (fsPut fs p a) p b = fsPut fs p b := by
  funext q
  unfold fsPut
  split_ifs <;> rfl

theorem Extends_refl (fs : FS) : Extends fs fs :=
  ⟨fun _ h => h, fun _ _ d h => ⟨d, h⟩⟩

theorem Extends_trans (a b c : FS) (h1 : Extends a b) (h2 : Extends b c) : Extends a c := by
  refine ⟨fun p h => h2.1 p (h1.1 p h), fun p m d h => ?_⟩
  obtain ⟨d1, hd1⟩ := h1.2 p m d h
  exact h2.2 p m d1 hd1

/-- A state and the same state with a node put where there was none. -/
theorem Extends_put_new (fs : FS) (p : Str) (n : Node) (h : stat fs p = none) :
    Extends fs (fsPut fs p (some n)) := by
  refine ⟨fun q hq => ?_, fun q m d hq => ?_⟩
  · have hne : q ≠ p := by
      rintro rfl
      rw [h] at hq
      cases hq
    rw [stat_fsPut_ne _ _ _ _ hne]
    exact hq
  · have hne : q ≠ p := by
      rintro rfl
      rw [h] at hq
      cases hq
    rw [stat_fsPut_ne _ _ _ _ hne]
    exact ⟨d, hq⟩

/-- A state and the same state with the contents of a regular file changed. -/
theorem Extends_put_file (fs : FS) (p : Str) (m : Nat) (d d' : Bytes)
    (h : stat fs p = some (Node.file m d)) :
    Extends fs (fsPut fs p (some (Node.file m d'))) := by
  have hna := stat_file_not_anchor fs p m d h
  refine ⟨fun q hq => ?_, fun q m2 d2 hq => ?_⟩
  · have hne : q ≠ p := by
      rintro rfl
      rw [h] at hq
      cases hq
    rw [stat_fsPut_ne _ _ _ _ hne]
    exact hq
  · by_cases hqp : q = p
    · subst hqp
      rw [h] at hq
      cases hq
      exact ⟨d', stat_fsPut_self _ _ _ hna⟩
    · rw [stat_fsPut_ne _ _ _ _ hqp]
      exact ⟨d2, hq⟩

theorem fileData_put_new (fs : FS) (p : Str) (h : stat fs p = none) (q : Str) :
    fileData (fsPut fs p (some Node.dir)) q = fileData fs q := by
  unfold fileData
  by_cases hqp : pathClean q = p
  · rw [hqp, stat_fsPut_self _ _ _ (stat_none_not_anchor fs p h), h]
  · rw [stat_fsPut_ne _ _ _ _ hqp]

theorem fileData_put_file (fs : FS) (p : Str) (m : Nat) (d : Bytes) (h : isAnchor p = false)
    (q : Str) :
    fileData (fsPut fs p (some (Node.file m d))) q =
      if pathClean q = p then some d else fileData fs q := by
  unfold fileData
  by_cases hqp : pathClean q = p
  · rw [hqp, stat_fsPut_self _ _ _ h]
    simp
  · rw [stat_fsPut_ne _ _ _ _ hqp]
    simp [hqp]

theorem Mkdir_ok (fs fs1 : FS) (p : Str) (h : Mkdir fs p = .ok fs1) :
    stat fs p = none ∧ fs1 = fsPut fs p (some Node.dir) := by
  unfold Mkdir at h
  split at h
  · cases h
  · rename_i hnone
    split at h
    · cases h
      exact ⟨hnone, rfl⟩
    · cases h
    · cases h

theorem resolves_mono (fs g : FS) (rooted : Bool) (rev : List Str) (h : Extends fs g)
    (hr : resolves fs rooted rev = true) : resolves g rooted rev = true := by
  induction rev with
  | nil => rfl
  | cons e parents ih =>
    unfold resolves at hr ⊢
    simp only [Bool.and_eq_true, Bool.or_eq_true, beq_iff_eq] at hr ⊢
    refine ⟨ih hr.1, ?_⟩
    rcases hr.2 with h1 | h1
    · exact Or.inl h1
    · exact Or.inr (h.1 _ h1)

theorem statRaw_dir_mono (fs g : FS) (rooted : Bool) (rev : List Str) (h : Extends fs g)
    (hd : statRaw fs rooted rev = some Node.dir) : statRaw g rooted rev = some Node.dir := by
  unfold statRaw at hd ⊢
  by_cases hr : resolves fs rooted rev = true
  · rw [if_pos hr] at hd
    rw [if_pos (resolves_mono fs g rooted rev h hr)]
    exact h.1 _ hd
  · rw [if_neg hr] at hd
    cases hd

theorem statRaw_resolves (fs : FS) (rooted : Bool) (rev : List Str) (n : Node)
    (h : statRaw fs rooted rev = some n) : resolves fs rooted rev = true := by
  unfold statRaw at h
  by_cases hr : resolves fs rooted rev = true
  · exact hr
  · rw [if_neg hr] at h
    cases h

theorem statRaw_nil (fs : FS) (rooted : Bool) : statRaw fs rooted [] = some Node.dir := by
  have ha : isAnchor (pathClean (rawOf rooted ([] : List Str).reverse)) = true := by
    cases rooted <;> decide
  unfold statRaw
  simp only [resolves, if_true]
  unfold stat
  rw [if_pos ha]

theorem mkdirRaw_ok (fs fs2 : FS) (rooted : Bool) (e : Str) (parents : List Str)
    (h : mkdirRaw fs rooted (e :: parents) = .ok fs2) :
    resolves fs rooted parents = true ∧ e ≠ "..".toList ∧
      Mkdir fs (pathClean (rawOf rooted (e :: parents).reverse)) = .ok fs2 := by
  unfold mkdirRaw at h
  simp only [] at h
  by_cases hr : resolves fs rooted parents = true
  · rw [if_pos hr] at h
    by_cases he : e = ".".toList ∨ e = "..".toList
    · rw [if_pos he] at h
      cases h
    · rw [if_neg he] at h
      exact ⟨hr, fun h2 => he (Or.inr h2), h⟩
  · rw [if_neg hr] at h
    cases h

theorem mkdirAllElems_ok (rooted : Bool) (rev : List Str) (fs fs1 : FS)
    (h : mkdirAllElems fs rooted rev = .ok fs1) :
    Extends fs fs1 ∧ (∀ q, fileData fs1 q = fileData fs q) ∧
      statRaw fs1 rooted rev = some Node.dir := by
  induction rev generalizing fs1 with
  | nil =>
    cases h
    exact ⟨Extends_refl fs, fun _ => rfl, statRaw_nil fs rooted⟩
  | cons e parents ih =>
    unfold mkdirAllElems at h
    split at h
    · rename_i hdir
      cases h
      exact ⟨Extends_refl fs, fun _ => rfl, hdir⟩
    · cases h
    · split at h
      · cases h
      · rename_i fs0 hrec
        obtain ⟨he, hf, hs⟩ := ih fs0 hrec
        split at h
        · rename_i fs2 hmk
          cases h
          obtain ⟨hres, hne, hmkdir⟩ := mkdirRaw_ok fs0 fs1 rooted e parents hmk
          obtain ⟨hnone, rfl⟩ := Mkdir_ok fs0 fs1 _ hmkdir
          have hext := Extends_put_new fs0 _ Node.dir hnone
          refine ⟨Extends_trans _ _ _ he hext, ?_, ?_⟩
          · intro q
            rw [fileData_put_new fs0 _ hnone q, hf q]
          · have hres2 := resolves_mono fs0 _ rooted parents hext hres
            have hres3 : resolves (fsPut fs0 (pathClean (rawOf rooted (e :: parents).reverse))
                (some Node.dir)) rooted (e :: parents) = true := by
              unfold resolves
              simp only [Bool.and_eq_true, Bool.or_eq_true, bne_iff_ne, ne_eq]
              exact ⟨hres2, Or.inl hne⟩
            unfold statRaw
            rw [if_pos hres3]
            exact stat_fsPut_self _ _ _ (stat_none_not_anchor fs0 _ hnone)
        · rename_i err hmk
          split_ifs at h with hst
          cases h
          exact ⟨he, hf, hst⟩

theorem MkdirAll_ok (fs fs1 : FS) (path : Str) (h : MkdirAll fs path = .ok fs1) :
    Extends fs fs1 ∧ (∀ q, fileData fs1 q = fileData fs q) ∧
      statPath fs1 path = some Node.dir := by
  unfold MkdirAll at h
  split_ifs at h with hp
  exact mkdirAllElems_ok _ _ fs fs1 h

theorem MkdirAll_of_dir (fs : FS) (path : Str) (hp : path ≠ [])
    (h : statPath fs path = some Node.dir) : MkdirAll fs path = .ok fs := by
  unfold MkdirAll
  rw [if_neg hp]
  unfold statPath at h
  cases hrev : (pathElems path).reverse with
  | nil => rfl
  | cons e parents =>
    rw [hrev] at h
    unfold mkdirAllElems
    rw [h]

theorem statPath_mono (fs g : FS) (path : Str) (h : Extends fs g)
    (hd : statPath fs path = some Node.dir) : statPath g path = some Node.dir :=
  statRaw_dir_mono fs g _ _ h hd

theorem MkdirAll_ok_ne_nil (fs fs1 : FS) (path : Str) (h : MkdirAll fs path = .ok fs1) :
    path ≠ [] := by
  rintro rfl
  simp [MkdirAll] at h

/-- What a successful `OpenFile` followed by the writes of the contents does:
the file at the cleaned path holds the contents, under a mode that the owner
may write when the requested permission bits allow it. -/
theorem OpenFile_ok (fs fs2 : FS) (path : Str) (perm : Nat) (h : OpenFile fs path perm = .ok fs2) :
    path ≠ [] ∧ isAnchor (pathClean path) = false ∧
    ∃ m, fs2 = fsPut fs (pathClean path) (some (Node.file m [])) ∧
      (ownerWrite m = true ∨ m = perm % 512) ∧
      (stat fs (pathClean path) = none ∨ ∃ d, stat fs (pathClean path) = some (Node.file m d)) := by
  unfold OpenFile at h
  split_ifs at h with hp
  refine ⟨hp, ?_⟩
  simp only [] at h
  split at h
  · cases h
  · rename_i mode d hfile
    split_ifs at h with hw
    cases h
    exact ⟨stat_file_not_anchor _ _ _ _ hfile, mode, rfl, Or.inl hw, Or.inr ⟨d, hfile⟩⟩
  · rename_i hnone
    split at h
    · cases h
      exact ⟨stat_none_not_anchor _ _ hnone, _, rfl, Or.inr rfl, Or.inl hnone⟩
    · cases h
    · cases h

theorem OpenFile_of_file (fs : FS) (path : Str) (perm m : Nat) (d : Bytes) (hp : path ≠ [])
    (h : stat fs (pathClean path) = some (Node.file m d)) (hw : ownerWrite m = true) :
    OpenFile fs path perm = .ok (fsPut fs (pathClean path) (some (Node.file m []))) := by
  unfold OpenFile
  rw [if_neg hp]
  simp [h, hw]

theorem writeAll_put (fs : FS) (path : Str) (m : Nat) (data : Bytes) :
    writeAll (fsPut fs (pathClean path) (some (Node.file m []))) path data =
      fsPut fs (pathClean path) (some (Node.file m data)) := by
  unfold writeAll
  simp only []
  have : fsPut fs (pathClean path) (some (Node.file m [])) (pathClean path)
      = some (Node.file m []) := by simp [fsPut]
  rw [this]
  simp [fsPut_fsPut]
/-! ## The extraction loops -/

theorem TypeDir_ne_TypeReg : TypeDir ≠ TypeReg := by decide

/-- The three ways in which an iteration of the tar loop goes on to the next
entry; any other iteration ends the loop with an error. -/
theorem tarLoop_cons_ok (outDir : Str) (ne : Bool) (fs : FS) (produced : List Str)
    (hdr : TarEntry) (rest : List TarEntry) (paths : List Str)
    (h : (tarLoop outDir ne fs produced (hdr :: rest)).result = .ok paths) :
    (hdr.typeflag = TypeDir ∧ ∃ fs1, MkdirAll fs (pathJoin outDir hdr.name) = .ok fs1 ∧
      tarLoop outDir ne fs produced (hdr :: rest) = tarLoop outDir ne fs1 produced rest) ∨
    (hdr.typeflag = TypeReg ∧ hdr.readErr = false ∧ ∃ fs1 fs2,
      MkdirAll fs (pathDir (pathJoin outDir hdr.name)) = .ok fs1 ∧
      OpenFile fs1 (pathJoin outDir hdr.name) hdr.mode = .ok fs2 ∧
      tarLoop outDir ne fs produced (hdr :: rest) =
        tarLoop outDir ne (writeAll fs2 (pathJoin outDir hdr.name) hdr.data)
          (produced ++ [pathJoin outDir hdr.name]) rest) ∨
    (hdr.typeflag ≠ TypeDir ∧ hdr.typeflag ≠ TypeReg ∧
      tarLoop outDir ne fs produced (hdr :: rest) = tarLoop outDir ne fs produced rest) := by
  by_cases hd : hdr.typeflag = TypeDir
  · left
    refine ⟨hd, ?_⟩
    cases hm : MkdirAll fs (pathJoin outDir hdr.name) with
    | error e => simp [tarLoop, hd, hm] at h
    | ok fs1 => exact ⟨fs1, rfl, by simp [tarLoop, hd, hm]⟩
  · by_cases hr : hdr.typeflag = TypeReg
    · right; left
      have hd : ¬ TypeReg = TypeDir := fun e => TypeDir_ne_TypeReg e.symm
      cases hm : MkdirAll fs (pathDir (pathJoin outDir hdr.name)) with
      | error e => simp [tarLoop, hd, hr, hm] at h
      | ok fs1 =>
        cases ho : OpenFile fs1 (pathJoin outDir hdr.name) hdr.mode with
        | error e => simp [tarLoop, hd, hr, hm, ho] at h
        | ok fs2 =>
          cases hre : hdr.readErr with
          | true => simp [tarLoop, hd, hr, hm, ho, hre] at h
          | false =>
            exact ⟨hr, rfl, fs1, fs2, rfl, ho, by simp [tarLoop, hd, hr, hm, ho, hre]⟩
    · right; right
      exact ⟨hd, hr, by simp [tarLoop, hd, hr]⟩

/-- The state after a regular-file entry is written. -/
theorem write_step (fs1 fs2 : FS) (fp : Str) (perm : Nat) (data : Bytes)
    (ho : OpenFile fs1 fp perm = .ok fs2) :
    fp ≠ [] ∧ isAnchor (pathClean fp) = false ∧ ∃ m,
      writeAll fs2 fp data = fsPut fs1 (pathClean fp) (some (Node.file m data)) ∧
      (ownerWrite m = true ∨ m = perm % 512) ∧ Extends fs1 (writeAll fs2 fp data) := by
  obtain ⟨hp, hna, m, rfl, hm, hst⟩ := OpenFile_ok fs1 fs2 fp perm ho
  refine ⟨hp, hna, m, writeAll_put fs1 fp m data, hm, ?_⟩
  rw [writeAll_put]
  rcases hst with h1 | ⟨d, h1⟩
  · exact Extends_put_new fs1 _ _ h1
  · exact Extends_put_file fs1 _ m d data h1

theorem regularPaths_cons_reg (outDir : Str) (hdr : TarEntry) (rest : List TarEntry)
    (h : hdr.typeflag = TypeReg) :
    regularPaths outDir (hdr :: rest) = pathJoin outDir hdr.name :: regularPaths outDir rest := by
  simp [regularPaths, h]

theorem regularPaths_cons_other (outDir : Str) (hdr : TarEntry) (rest : List TarEntry)
    (h : hdr.typeflag ≠ TypeReg) :
    regularPaths outDir (hdr :: rest) = regularPaths outDir rest := by
  simp [regularPaths, h]

theorem tarLoop_paths (outDir : Str) (ne : Bool) (es : List TarEntry) (fs : FS)
    (produced paths : List Str) (h : (tarLoop outDir ne fs produced es).result = .ok paths) :
    paths = produced ++ regularPaths outDir es := by
  induction es generalizing fs produced with
  | nil =>
    unfold tarLoop at h
    split_ifs at h
    cases h
    simp [regularPaths]
  | cons hdr rest ih =>
    rcases tarLoop_cons_ok outDir ne fs produced hdr rest paths h with
      ⟨hd, fs1, -, heq⟩ | ⟨hr, -, fs1, fs2, -, -, heq⟩ | ⟨-, hr, heq⟩
    · rw [heq] at h
      have hr : hdr.typeflag ≠ TypeReg := by rw [hd]; exact TypeDir_ne_TypeReg
      rw [ih fs1 produced h, regularPaths_cons_other outDir hdr rest hr]
    · rw [heq] at h
      rw [ih _ _ h, regularPaths_cons_reg outDir hdr rest hr]
      simp
    · rw [heq] at h
      rw [ih fs produced h, regularPaths_cons_other outDir hdr rest hr]

theorem tarLoop_Extends (outDir : Str) (ne : Bool) (es : List TarEntry) (fs : FS)
    (produced paths : List Str) (h : (tarLoop outDir ne fs produced es).result = .ok paths) :
    Extends fs (tarLoop outDir ne fs produced es).fs := by
  induction es generalizing fs produced with
  | nil =>
    unfold tarLoop
    split_ifs <;> exact Extends_refl fs
  | cons hdr rest ih =>
    rcases tarLoop_cons_ok outDir ne fs produced hdr rest paths h with
      ⟨-, fs1, hm, heq⟩ | ⟨-, -, fs1, fs2, hm, ho, heq⟩ | ⟨-, -, heq⟩
    · rw [heq] at h ⊢
      exact Extends_trans _ _ _ (MkdirAll_ok fs fs1 _ hm).1 (ih fs1 produced h)
    · rw [heq] at h ⊢
      obtain ⟨-, -, m, -, -, hext⟩ := write_step fs1 fs2 _ hdr.mode hdr.data ho
      exact Extends_trans _ _ _ (MkdirAll_ok fs fs1 _ hm).1
        (Extends_trans _ _ _ hext (ih _ _ h))
    · rw [heq] at h ⊢
      exact ih fs produced h

theorem lastWrite_cons (outDir : Str) (e : TarEntry) (rest : List TarEntry) (q : Str) :
    lastWrite outDir (e :: rest) q =
      match lastWrite outDir rest q with
      | some d => some d
      | none =>
        if e.typeflag = TypeReg ∧ pathClean (pathJoin outDir e.name) = q then some e.data
        else none := rfl

theorem tarLoop_fileData (outDir : Str) (ne : Bool) (es : List TarEntry) (fs : FS)
    (produced paths : List Str) (h : (tarLoop outDir ne fs produced es).result = .ok paths)
    (q : Str) :
    fileData (tarLoop outDir ne fs produced es).fs q =
      match lastWrite outDir es (pathClean q) with
      | some d => some d
      | none => fileData fs q := by
  induction es generalizing fs produced with
  | nil =>
    unfold tarLoop lastWrite
    split_ifs <;> rfl
  | cons hdr rest ih =>
    rcases tarLoop_cons_ok outDir ne fs produced hdr rest paths h with
      ⟨hd, fs1, hm, heq⟩ | ⟨hr, -, fs1, fs2, hm, ho, heq⟩ | ⟨-, hr, heq⟩
    · rw [heq] at h ⊢
      have hr : hdr.typeflag ≠ TypeReg := by rw [hd]; exact TypeDir_ne_TypeReg
      rw [ih fs1 produced h, (MkdirAll_ok fs fs1 _ hm).2.1 q]
      rw [lastWrite_cons]
      cases lastWrite outDir rest (pathClean q) <;> simp [hr]
    · rw [heq] at h ⊢
      obtain ⟨-, hna, m, hw, -, -⟩ := write_step fs1 fs2 _ hdr.mode hdr.data ho
      rw [ih _ _ h, hw, fileData_put_file fs1 _ m hdr.data hna q, (MkdirAll_ok fs fs1 _ hm).2.1 q]
      rw [lastWrite_cons]
      cases lastWrite outDir rest (pathClean q) with
      | some d => rfl
      | none =>
        by_cases hq : pathClean q = pathClean (pathJoin outDir hdr.name)
        · simp [hr, hq]
        · have hq' : ¬ pathClean (pathJoin outDir hdr.name) = pathClean q := fun e => hq e.symm
          simp [hq, hq']
    · rw [heq] at h ⊢
      rw [ih fs produced h]
      rw [lastWrite_cons]
      cases lastWrite outDir rest (pathClean q) <;> simp [hr]
theorem asTar_toZip (e : Entry)
    (h : e.kind = Kind.regular → e.name.getLast? ≠ some '/') : e.toZip.asTar = e.toTar := by
  cases e with
  | mk kind name mode data =>
    cases kind with
    | directory => rfl
    | regular =>
      have hn : (name.getLast? == some '/') = false := by
        simpa using h rfl
      simp [Entry.toZip, Entry.toTar, ZipFile.asTar, hn]

theorem zipLoop_eq_tarLoop (outDir : Str) (files : List ZipFile) (fs : FS)
    (produced : List Str) (h : ∀ f ∈ files, f.isDir = false → f.openErr = false) :
    zipLoop outDir fs produced files =
      tarLoop outDir false fs produced (files.map ZipFile.asTar) := by
  induction files generalizing fs produced with
  | nil => rfl
  | cons f rest ih =>
    have hrest : ∀ g ∈ rest, g.isDir = false → g.openErr = false :=
      fun g hg => h g (List.mem_cons_of_mem _ hg)
    have hne : ¬ TypeReg = TypeDir := fun e => TypeDir_ne_TypeReg e.symm
    rw [List.map_cons]
    unfold zipLoop tarLoop
    cases hd : f.isDir with
    | true =>
      simp only [ZipFile.asTar, hd, if_true]
      cases MkdirAll fs (pathJoin outDir f.name) with
      | error e => rfl
      | ok fs1 => exact ih fs1 produced hrest
    | false =>
      have hf : f.openErr = false := h f (by simp) hd
      simp only [ZipFile.asTar, hd, Bool.false_eq_true, if_false, hne, if_true, hf]
      cases MkdirAll fs (pathDir (pathJoin outDir f.name)) with
      | error e => rfl
      | ok fs1 =>
        simp only []
        cases OpenFile fs1 (pathJoin outDir f.name) f.mode with
        | error e => rfl
        | ok fs2 =>
          simp only []
          cases f.readErr with
          | true => rfl
          | false => exact ih _ _ hrest

theorem zipLoop_ok_openErr (outDir : Str) (files : List ZipFile) (fs : FS)
    (produced paths : List Str) (h : (zipLoop outDir fs produced files).result = .ok paths) :
    ∀ f ∈ files, f.isDir = false → f.openErr = false := by
  induction files generalizing fs produced with
  | nil => intro f hf; cases hf
  | cons f rest ih =>
    intro g hg hgd
    unfold zipLoop at h
    simp only [] at h
    cases hd : f.isDir with
    | true =>
      rw [hd] at h
      simp only [if_true] at h
      cases hm : MkdirAll fs (pathJoin outDir f.name) with
      | error e => rw [hm] at h; cases h
      | ok fs1 =>
        rw [hm] at h
        rcases List.mem_cons.1 hg with rfl | hg'
        · rw [hd] at hgd; cases hgd
        · exact ih fs1 produced h g hg' hgd
    | false =>
      rw [hd] at h
      simp only [Bool.false_eq_true, if_false] at h
      cases hm : MkdirAll fs (pathDir (pathJoin outDir f.name)) with
      | error e => rw [hm] at h; cases h
      | ok fs1 =>
        rw [hm] at h
        simp only [] at h
        cases ho : f.openErr with
        | true => rw [ho] at h; cases h
        | false =>
          rw [ho] at h
          simp only [Bool.false_eq_true, if_false] at h
          cases hop : OpenFile fs1 (pathJoin outDir f.name) f.mode with
          | error e => rw [hop] at h; cases h
          | ok fs2 =>
            rw [hop] at h
            simp only [] at h
            cases hre : f.readErr with
            | true => rw [hre] at h; cases h
            | false =>
              rw [hre] at h
              simp only [Bool.false_eq_true, if_false] at h
              rcases List.mem_cons.1 hg with rfl | hg'
              · exact ho
              · exact ih _ _ h g hg' hgd

/-- A second run of the tar loop over the same entries, from a state that
extends the one the first run left, succeeds. -/
theorem tarLoop_rerun (outDir : Str) (ne : Bool) (es : List TarEntry)
    (hw : ∀ e ∈ es, e.typeflag = TypeReg → ownerWrite (e.mode % 512) = true)
    (fs : FS) (produced paths : List Str)
    (h : (tarLoop outDir ne fs produced es).result = .ok paths)
    (g : FS) (produced2 : List Str)
    (hext : Extends (tarLoop outDir ne fs produced es).fs g) :
    (tarLoop outDir ne g produced2 es).result = .ok (produced2 ++ regularPaths outDir es) := by
  induction es generalizing fs produced g produced2 with
  | nil =>
    unfold tarLoop at h ⊢
    split_ifs at h ⊢
    simp [regularPaths]
  | cons hdr rest ih =>
    have hwrest : ∀ e ∈ rest, e.typeflag = TypeReg → ownerWrite (e.mode % 512) = true :=
      fun e he => hw e (List.mem_cons_of_mem _ he)
    rcases tarLoop_cons_ok outDir ne fs produced hdr rest paths h with
      ⟨hd, fs1, hm, heq⟩ | ⟨hr, hre, fs1, fs2, hm, ho, heq⟩ | ⟨hd, hr, heq⟩
    · rw [heq] at h hext
      have hr : hdr.typeflag ≠ TypeReg := by rw [hd]; exact TypeDir_ne_TypeReg
      have hdir := (MkdirAll_ok fs fs1 _ hm).2.2
      have hdirg := statPath_mono _ g _
        (Extends_trans _ _ _ (tarLoop_Extends outDir ne rest fs1 produced paths h) hext) hdir
      have hmg := MkdirAll_of_dir g _ (MkdirAll_ok_ne_nil fs fs1 _ hm) hdirg
      have hstep : tarLoop outDir ne g produced2 (hdr :: rest) =
          tarLoop outDir ne g produced2 rest := by
        simp [tarLoop, hd, hmg]
      rw [hstep, regularPaths_cons_other outDir hdr rest hr]
      exact ih hwrest fs1 produced h g produced2 hext
    · rw [heq] at h hext
      obtain ⟨hp, hna, m, hwr, hm2, hext1⟩ := write_step fs1 fs2 _ hdr.mode hdr.data ho
      have hmw : ownerWrite m = true := by
        rcases hm2 with h1 | h1
        · exact h1
        · rw [h1]; exact hw hdr (by simp) hr
      have hfin := tarLoop_Extends outDir ne rest _ _ paths h
      -- the parent directory is still there
      have hdir := (MkdirAll_ok fs fs1 _ hm).2.2
      have hdirg := statPath_mono _ g _
        (Extends_trans _ _ _ hext1 (Extends_trans _ _ _ hfin hext)) hdir
      have hmg := MkdirAll_of_dir g _ (MkdirAll_ok_ne_nil fs fs1 _ hm) hdirg
      -- the file is still there, under the same mode
      have hfile : stat (writeAll fs2 (pathJoin outDir hdr.name) hdr.data)
          (pathClean (pathJoin outDir hdr.name)) = some (Node.file m hdr.data) := by
        rw [hwr]; exact stat_fsPut_self _ _ _ hna
      obtain ⟨d1, hd1⟩ := hfin.2 _ _ _ hfile
      obtain ⟨d2, hd2⟩ := hext.2 _ _ _ hd1
      have hog := OpenFile_of_file g _ hdr.mode m d2 hp hd2 hmw
      have hd : ¬ TypeReg = TypeDir := fun e => TypeDir_ne_TypeReg e.symm
      have hstep : tarLoop outDir ne g produced2 (hdr :: rest) =
          tarLoop outDir ne (fsPut g (pathClean (pathJoin outDir hdr.name))
            (some (Node.file m hdr.data))) (produced2 ++ [pathJoin outDir hdr.name]) rest := by
        simp [tarLoop, hr, hd, hmg, hog, hre, writeAll_put]
      rw [hstep, regularPaths_cons_reg outDir hdr rest hr]
      have hext2 : Extends (tarLoop outDir ne
          (writeAll fs2 (pathJoin outDir hdr.name) hdr.data)
          (produced ++ [pathJoin outDir hdr.name]) rest).fs
          (fsPut g (pathClean (pathJoin outDir hdr.name)) (some (Node.file m hdr.data))) :=
        Extends_trans _ _ _ hext (Extends_put_file g _ m d2 hdr.data hd2)
      rw [ih hwrest _ _ h _ (produced2 ++ [pathJoin outDir hdr.name]) hext2]
      simp
    · rw [heq] at h hext
      have hstep : tarLoop outDir ne g produced2 (hdr :: rest) =
          tarLoop outDir ne g produced2 rest := by
        simp [tarLoop, hd, hr]
      rw [hstep, regularPaths_cons_other outDir hdr rest hr]
      exact ih hwrest fs produced h g produced2 hext

/-- A second run of the tar loop from the state the first left: the same
result, and every file with the same contents. -/
theorem tarLoop_twice (outDir : Str) (ne : Bool) (es : List TarEntry)
    (hw : ∀ e ∈ es, e.typeflag = TypeReg → ownerWrite (e.mode % 512) = true)
    (fs : FS) (paths : List Str)
    (h : (tarLoop outDir ne fs [] es).result = .ok paths) :
    (tarLoop outDir ne (tarLoop outDir ne fs [] es).fs [] es).result = .ok paths ∧
    ∀ p, fileData (tarLoop outDir ne (tarLoop outDir ne fs [] es).fs [] es).fs p =
      fileData (tarLoop outDir ne fs [] es).fs p := by
  have h2 := tarLoop_rerun outDir ne es hw fs [] paths h _ [] (Extends_refl _)
  have hp := tarLoop_paths outDir ne es fs [] paths h
  rw [← hp] at h2
  refine ⟨h2, fun p => ?_⟩
  rw [tarLoop_fileData outDir ne es _ [] paths h2 p, tarLoop_fileData outDir ne es fs [] paths h p]
  cases lastWrite outDir es (pathClean p) <;> rfl
/-! ## Extraction results (C4, C5, C9, C10) -/

theorem tarLoop_filter (outDir : Str) (ne : Bool) (es : List TarEntry) (fs : FS)
    (produced : List Str) :
    tarLoop outDir ne fs produced es =
      tarLoop outDir ne fs produced
        (es.filter (fun e => e.typeflag = TypeDir ∨ e.typeflag = TypeReg)) := by
  induction es generalizing fs produced with
  | nil => rfl
  | cons hdr rest ih =>
    by_cases hd : hdr.typeflag = TypeDir
    · rw [List.filter_cons_of_pos (by simp [hd])]
      unfold tarLoop
      simp only [hd, if_true]
      cases MkdirAll fs (pathJoin outDir hdr.name) with
      | error e => rfl
      | ok fs1 => exact ih fs1 produced
    · by_cases hr : hdr.typeflag = TypeReg
      · rw [List.filter_cons_of_pos (by simp [hr])]
        have hne : ¬ TypeReg = TypeDir := fun e => TypeDir_ne_TypeReg e.symm
        unfold tarLoop
        simp only [hr, hne, if_true, if_false]
        cases MkdirAll fs (pathDir (pathJoin outDir hdr.name)) with
        | error e => rfl
        | ok fs1 =>
          simp only []
          cases OpenFile fs1 (pathJoin outDir hdr.name) hdr.mode with
          | error e => rfl
          | ok fs2 =>
            simp only []
            cases hdr.readErr with
            | true => rfl
            | false => exact ih _ _
      · rw [List.filter_cons_of_neg (by simp [hd, hr])]
        have : tarLoop outDir ne fs produced (hdr :: rest) =
            tarLoop outDir ne fs produced rest := by
          simp [tarLoop, hd, hr]
        rw [this]
        exact ih fs produced

/-- C4: when the archive opens and the extraction succeeds, `extractTarGz`
returns the paths `Join(outDir, name)` of the regular-file entries in the
order of the stream, and the entries that are neither directories nor regular
files change nothing: the outcome is that of the stream without them. -/
theorem extractTarGz_result (codec : Codec) (fs : FS) (gzPath outDir : Str) (tr : TarStream)
    (paths : List Str) (hopen : openTarGz codec fs gzPath = .ok tr)
    (hok : (extractTarGz codec fs gzPath outDir).result = .ok paths) :
    paths = (tr.entries.filter (fun e => e.typeflag = TypeReg)).map
        (fun e => pathJoin outDir e.name) ∧
    extractTarGz codec fs gzPath outDir =
      tarLoop outDir tr.nextErr fs []
        (tr.entries.filter (fun e => e.typeflag = TypeDir ∨ e.typeflag = TypeReg)) := by
  unfold extractTarGz at hok ⊢
  rw [hopen] at hok ⊢
  simp only [] at hok ⊢
  refine ⟨?_, tarLoop_filter outDir tr.nextErr tr.entries fs []⟩
  have := tarLoop_paths outDir tr.nextErr tr.entries fs [] paths hok
  simpa [regularPaths] using this

/-- An instance of C4: a stream with a symbolic link and a file written twice. -/
theorem extractTarGz_result_witness :
    ["out/bin/tool".toList, "out/bin/tool".toList] =
      (mixedStream.entries.filter (fun e => e.typeflag = TypeReg)).map
        (fun e => pathJoin "out".toList e.name) ∧
    extractTarGz demoCodec demoFS "/tmp/mixed.tgz".toList "out".toList =
      tarLoop "out".toList mixedStream.nextErr demoFS []
        (mixedStream.entries.filter (fun e => e.typeflag = TypeDir ∨ e.typeflag = TypeReg)) :=
  extractTarGz_result demoCodec demoFS "/tmp/mixed.tgz".toList "out".toList mixedStream
    ["out/bin/tool".toList, "out/bin/tool".toList] (by decide) (by decide)
/-- C5 (amended): when no regular-file entry has a name ending in `/`, then
on the zip container and on the tar+gzip archive that hold the same directory
and regular-file entries in the same order, `extractZip` and `extractTarGz`
have the same outcome: the same result (error or list of paths) and the same
file system. -/
theorem extractZip_eq_extractTarGz (codec : Codec) (fs : FS) (zipPath gzPath outDir : Str)
    (entries : List Entry)
    (hname : ∀ e ∈ entries, e.kind = Kind.regular → e.name.getLast? ≠ some '/')
    (hz : openZip codec fs zipPath = .ok (zipOf entries))
    (ht : openTarGz codec fs gzPath = .ok (tarOf entries)) :
    extractZip codec fs zipPath outDir = extractTarGz codec fs gzPath outDir := by
  unfold extractZip extractTarGz
  rw [hz, ht]
  simp only []
  rw [zipLoop_eq_tarLoop outDir (zipOf entries) fs []]
  · congr 1
    unfold zipOf tarOf
    simp only [List.map_map]
    apply List.map_congr_left
    intro e he
    exact asTar_toZip e (hname e he)
  · intro f hf _
    unfold zipOf at hf
    obtain ⟨e, -, rfl⟩ := List.mem_map.1 hf
    rfl

/-- An instance of the amended C5: the round-trip scenario in both formats. -/
theorem extractZip_eq_extractTarGz_witness :
    extractZip demoCodec demoFS "/tmp/hello.zip".toList "out".toList =
        extractTarGz demoCodec demoFS "/tmp/hello.tgz".toList "out".toList ∧
      (extractTarGz demoCodec demoFS "/tmp/hello.tgz".toList "out".toList).result =
        .ok ["out/a/b.txt".toList] ∧
      fileData (extractTarGz demoCodec demoFS "/tmp/hello.tgz".toList "out".toList).fs
        "out/a/b.txt".toList = some [104, 101, 108, 108, 111] :=
  ⟨extractZip_eq_extractTarGz demoCodec demoFS "/tmp/hello.zip".toList "/tmp/hello.tgz".toList
    "out".toList helloEntries (by decide) (by decide) (by decide), by decide, by decide⟩

/-- C5 as stated fails: for the regular-file entry named `a/`, the tar
extraction writes the file `out/a` and reports it, while the zip reader lists
the entry as a directory, so that the zip extraction makes the directory
`out/a` and reports nothing. -/
theorem extractZip_ne_extractTarGz_slash :
    openTarGz demoCodec demoFS "/tmp/slash.tgz".toList = .ok (tarOf slashEntries) ∧
    openZip demoCodec demoFS "/tmp/slash.zip".toList = .ok (zipOf slashEntries) ∧
    (extractTarGz demoCodec demoFS "/tmp/slash.tgz".toList "out".toList).result =
      .ok ["out/a".toList] ∧
    fileData (extractTarGz demoCodec demoFS "/tmp/slash.tgz".toList "out".toList).fs
      "out/a".toList = some [1] ∧
    (extractZip demoCodec demoFS "/tmp/slash.zip".toList "out".toList).result = .ok [] ∧
    stat (extractZip demoCodec demoFS "/tmp/slash.zip".toList "out".toList).fs
      "out/a".toList = some Node.dir := by
  decide

theorem openTarGz_fs (codec : Codec) (fs : FS) (path outDir : Str) (tr : TarStream)
    (h : openTarGz codec fs path = .ok tr) :
    extractTarGz codec fs path outDir = tarLoop outDir tr.nextErr fs [] tr.entries := by
  unfold extractTarGz
  rw [h]

theorem openZip_fs (codec : Codec) (fs : FS) (path outDir : Str) (files : List ZipFile)
    (h : openZip codec fs path = .ok files) :
    extractZip codec fs path outDir = zipLoop outDir fs [] files := by
  unfold extractZip
  rw [h]

/-- C9 (amended): when every regular-file entry of the archive carries the
owner-write permission bit and a first extraction succeeds, a second
extraction of the same archive into the same directory, from the state the
first one left, succeeds with the same list of paths and leaves every file
with the same contents. -/
theorem reextract_writable (codec : Codec) (fs : FS) (path path2 outDir : Str) (a : Archive)
    (paths : List Str) (hopen : opensAs codec fs path a) (hw : ownerWritable a)
    (hfirst : (extractAs codec fs path outDir a).result = .ok paths)
    (hopen2 : opensAs codec (extractAs codec fs path outDir a).fs path2 a) :
    (extractAs codec (extractAs codec fs path outDir a).fs path2 outDir a).result = .ok paths ∧
    ∀ p, fileData (extractAs codec (extractAs codec fs path outDir a).fs path2 outDir a).fs p =
      fileData (extractAs codec fs path outDir a).fs p := by
  cases a with
  | tarGz tr =>
    simp only [opensAs, extractAs, ownerWritable] at hopen hw hfirst hopen2 ⊢
    rw [openTarGz_fs codec fs path outDir tr hopen] at hfirst hopen2 ⊢
    rw [openTarGz_fs codec _ path2 outDir tr hopen2]
    exact tarLoop_twice outDir tr.nextErr tr.entries hw fs paths hfirst
  | zip files =>
    simp only [opensAs, extractAs, ownerWritable] at hopen hw hfirst hopen2 ⊢
    rw [openZip_fs codec fs path outDir files hopen] at hfirst hopen2 ⊢
    rw [openZip_fs codec _ path2 outDir files hopen2]
    have herr := zipLoop_ok_openErr outDir files fs [] paths hfirst
    rw [zipLoop_eq_tarLoop outDir files fs [] herr] at hfirst ⊢
    rw [zipLoop_eq_tarLoop outDir files _ [] herr]
    apply tarLoop_twice outDir false (files.map ZipFile.asTar) _ fs paths hfirst
    intro e he hreg
    obtain ⟨f, hf, rfl⟩ := List.mem_map.1 he
    have hd : f.isDir = false := by
      cases hfd : f.isDir with
      | false => rfl
      | true =>
        simp only [ZipFile.asTar, hfd, if_true] at hreg
        exact absurd hreg TypeDir_ne_TypeReg
    exact hw f hf hd

/-- An instance of the amended C9: the round-trip scenario extracted twice from its zip. -/
theorem reextract_writable_witness :
    (extractAs demoCodec
        (extractAs demoCodec demoFS "/tmp/hello.zip".toList "out".toList
          (Archive.zip (zipOf helloEntries))).fs
        "/tmp/hello.zip".toList "out".toList (Archive.zip (zipOf helloEntries))).result =
      .ok ["out/a/b.txt".toList] ∧
    ∀ p, fileData (extractAs demoCodec
        (extractAs demoCodec demoFS "/tmp/hello.zip".toList "out".toList
          (Archive.zip (zipOf helloEntries))).fs
        "/tmp/hello.zip".toList "out".toList (Archive.zip (zipOf helloEntries))).fs p =
      fileData (extractAs demoCodec demoFS "/tmp/hello.zip".toList "out".toList
        (Archive.zip (zipOf helloEntries))).fs p :=
  reextract_writable demoCodec demoFS "/tmp/hello.zip".toList "/tmp/hello.zip".toList
    "out".toList (Archive.zip (zipOf helloEntries)) ["out/a/b.txt".toList]
    (by decide) (by decide) (by decide) (by decide)

/-- C9 as stated fails: an archive with a read-only regular file is extracted
once without error, and the second extraction into the same directory fails
on opening the file that the first one created. -/
theorem reextract_readOnly_fails :
    openTarGz demoCodec demoFS "/tmp/ro.tgz".toList = .ok (tarOf readOnlyEntries) ∧
    (extractTarGz demoCodec demoFS "/tmp/ro.tgz".toList "out".toList).result =
      .ok ["out/LICENSE".toList] ∧
    openTarGz demoCodec (extractTarGz demoCodec demoFS "/tmp/ro.tgz".toList "out".toList).fs
      "/tmp/ro.tgz".toList = .ok (tarOf readOnlyEntries) ∧
    (extractTarGz demoCodec
      (extractTarGz demoCodec demoFS "/tmp/ro.tgz".toList "out".toList).fs
      "/tmp/ro.tgz".toList "out".toList).result = .error Err.permission ∧
    (extractZip demoCodec demoFS "/tmp/ro.zip".toList "out".toList).result =
      .ok ["out/LICENSE".toList] ∧
    (extractZip demoCodec
      (extractZip demoCodec demoFS "/tmp/ro.zip".toList "out".toList).fs
      "/tmp/ro.zip".toList "out".toList).result = .error Err.permission := by
  decide

theorem CreateTemp_ok (fs fs1 : FS) (name : Str) (h : CreateTemp fs name = .ok fs1) :
    stat fs (pathClean name) = none ∧
      fs1 = fsPut fs (pathClean name) (some (Node.file 0o600 [])) := by
  unfold CreateTemp at h
  simp only [] at h
  split at h
  · cases h
  · rename_i hnone
    split at h
    · cases h
      exact ⟨hnone, rfl⟩
    · cases h
    · cases h

theorem fetch_ok (w : World) (fs : FS) (url token tmp : Str)
    (h : (fetch w fs url token).result = .ok tmp) :
    ∃ resp, w.http url token = some resp ∧ tmp = w.tempName ∧
      isAnchor (pathClean w.tempName) = false ∧
      (fetch w fs url token).fs =
        fsPut fs (pathClean w.tempName) (some (Node.file 0o600 resp.body)) := by
  unfold fetch at h ⊢
  cases hr : w.http url token with
  | none => rw [hr] at h; cases h
  | some resp =>
    rw [hr] at h
    simp only [] at h ⊢
    by_cases hs : resp.status = 200
    · simp only [hs, ne_eq, not_true_eq_false, if_false] at h ⊢
      cases hc : CreateTemp fs w.tempName with
      | error e => rw [hc] at h; cases h
      | ok fs1 =>
        rw [hc] at h
        simp only [] at h ⊢
        obtain ⟨hnone, rfl⟩ := CreateTemp_ok fs fs1 _ hc
        cases hb : resp.bodyErr with
        | true => rw [hb] at h; cases h
        | false =>
          rw [hb] at h
          simp only [Bool.false_eq_true, if_false] at h ⊢
          cases h
          exact ⟨resp, rfl, rfl, stat_none_not_anchor fs _ hnone, writeAll_put fs _ _ _⟩
    · simp only [ne_eq, hs, not_false_eq_true, if_true] at h
      cases h

theorem stat_of_fileData (fs : FS) (path : Str) (d : Bytes) (h : fileData fs path = some d) :
    ∃ m, stat fs (pathClean path) = some (Node.file m d) := by
  unfold fileData at h
  split at h
  · rename_i m data hst
    cases h
    exact ⟨m, hst⟩
  · cases h

theorem fileData_of_stat (fs : FS) (path : Str) (m : Nat) (d : Bytes)
    (h : stat fs (pathClean path) = some (Node.file m d)) : fileData fs path = some d := by
  unfold fileData
  rw [h]

theorem copyFile_ok (fs : FS) (src dst : Str) (mode : Nat) (d : Bytes)
    (h : (copyFile fs src dst mode).result = .ok ()) (hsrc : fileData fs src = some d)
    (hne : pathClean dst ≠ pathClean src) :
    fileData (copyFile fs src dst mode).fs dst = some d := by
  unfold copyFile at h ⊢
  cases ho : Open fs src with
  | error e => rw [ho] at h; cases h
  | ok u =>
    rw [ho] at h
    simp only [] at h ⊢
    cases hm : MkdirAll fs (pathDir dst) with
    | error e => rw [hm] at h; cases h
    | ok fs1 =>
      rw [hm] at h
      simp only [] at h ⊢
      cases hop : OpenFile fs1 dst mode with
      | error e => rw [hop] at h; cases h
      | ok fs2 =>
        rw [hop] at h
        simp only [] at h ⊢
        obtain ⟨-, hna, m, rfl, -, -⟩ := OpenFile_ok fs1 fs2 dst mode hop
        have hsrc1 : fileData fs1 src = some d := by
          rw [(MkdirAll_ok fs fs1 _ hm).2.1 src]; exact hsrc
        obtain ⟨ms, hst⟩ := stat_of_fileData fs1 src d hsrc1
        have hread : readAll (fsPut fs1 (pathClean dst) (some (Node.file m []))) src = .ok d := by
          unfold readAll
          rw [stat_fsPut_ne _ _ _ _ (Ne.symm hne), hst]
        rw [hread]
        simp only []
        rw [writeAll_put]
        exact fileData_of_stat _ dst m d (stat_fsPut_self _ _ _ hna)

theorem fileData_Remove_ne (fs : FS) (p q : Str) (h : pathClean q ≠ pathClean p) :
    fileData (Remove fs p) q = fileData fs q := by
  unfold Remove
  split
  · unfold fileData
    rw [stat_fsPut_ne _ _ _ _ h]
  · rfl

theorem store_plain_ok (w : World) (fs : FS) (filename tmp outDir : Str) (d : Bytes)
    (produced : List Str) (hplain : dispatch w.ToLower filename = Strategy.plain)
    (h : (store w fs filename tmp outDir).result = .ok produced)
    (hsrc : fileData fs tmp = some d)
    (hne : pathClean (pathJoin outDir (pathBase filename)) ≠ pathClean tmp) :
    produced = [pathJoin outDir (pathBase filename)] ∧
      fileData (store w fs filename tmp outDir).fs (pathJoin outDir (pathBase filename))
        = some d := by
  unfold store at h ⊢
  rw [hplain] at h ⊢
  simp only [] at h ⊢
  have hc := copyFile_ok fs tmp (pathJoin outDir (pathBase filename)) 0o644 d
  cases hcp : copyFile fs tmp (pathJoin outDir (pathBase filename)) 0o644 with
  | mk res fs1 =>
    rw [hcp] at h hc
    cases res with
    | error e => cases h
    | ok u =>
      simp only [] at h ⊢
      cases h
      exact ⟨rfl, hc rfl hsrc hne⟩

/-- C7 (amended): when the dispatch classifies the resolved filename as a
non-archive, the destination `Join(outDir, Base(filename))` is not the
temporary download file, and the run ends without error, the pipeline reports
that one path and the file there holds exactly the fetched bytes. -/
theorem main_plain_copy (w : World) (fl : Flags) (fs : FS) (filename : Str) (resp : Response)
    (produced : List Str) (hname : filenameOf fl = some filename)
    (hplain : dispatch w.ToLower filename = Strategy.plain)
    (hresp : w.http (urlOf fl filename) fl.token = some resp)
    (hne : pathClean (pathJoin fl.outDir (pathBase filename)) ≠ pathClean w.tempName)
    (hrun : (main w fl fs).exit = Exit.saved produced) :
    produced = [pathJoin fl.outDir (pathBase filename)] ∧
      fileData (main w fl fs).fs (pathJoin fl.outDir (pathBase filename)) = some resp.body := by
  unfold main at hrun ⊢
  by_cases hreq : fl.repo = [] ∨ fl.version = [] ∨ fl.filePattern = []
  · rw [if_pos hreq] at hrun
    cases hrun
  · rw [if_neg hreq] at hrun ⊢
    rw [hname] at hrun ⊢
    simp only [] at hrun ⊢
    cases hm : MkdirAll fs fl.outDir with
    | error e =>
      try rw [hm] at hrun
      cases hrun
    | ok fs1 =>
      try rw [hm] at hrun
      try rw [hm]
      simp only [] at hrun ⊢
      have hf := fetch_ok w fs1 (urlOf fl filename) fl.token
      cases hfe : fetch w fs1 (urlOf fl filename) fl.token with
      | mk res fs2 =>
        try rw [hfe] at hrun
        try rw [hfe] at hf
        try rw [hfe]
        cases res with
        | error e => cases hrun
        | ok tmp =>
          simp only [] at hrun hf ⊢
          obtain ⟨resp', hresp', htmp, hna, hfs2⟩ := hf tmp rfl
          subst htmp
          subst hfs2
          rw [hresp] at hresp'
          cases hresp'
          have hsrc : fileData (fsPut fs1 (pathClean w.tempName)
              (some (Node.file 0o600 resp.body))) w.tempName = some resp.body :=
            fileData_of_stat _ _ _ _ (stat_fsPut_self _ _ _ hna)
          have hst := store_plain_ok w (fsPut fs1 (pathClean w.tempName)
              (some (Node.file 0o600 resp.body))) filename w.tempName fl.outDir resp.body
          cases hs : store w (fsPut fs1 (pathClean w.tempName)
              (some (Node.file 0o600 resp.body))) filename w.tempName fl.outDir with
          | mk sres fs3 =>
            try rw [hs] at hrun
            try rw [hs] at hst
            try rw [hs]
            cases sres with
            | error e => cases hrun
            | ok prod =>
              simp only [] at hrun hst ⊢
              cases hrun
              obtain ⟨h1, h2⟩ := hst produced hplain rfl hsrc hne
              exact ⟨h1, by rw [fileData_Remove_ne _ _ _ hne]; exact h2⟩

/-- An instance of the amended C7: a plain asset saved under `out`. -/
theorem main_plain_copy_witness :
    [pathJoin "out".toList (pathBase "tool-v1-linux-amd64".toList)] =
        ["out/tool-v1-linux-amd64".toList] ∧
      fileData (main demoWorld (demoFlags "tool-{version}-{os}-{arch}".toList "out".toList)
        demoFS).fs (pathJoin "out".toList (pathBase "tool-v1-linux-amd64".toList)) = some [9] :=
  have h := main_plain_copy demoWorld (demoFlags "tool-{version}-{os}-{arch}".toList "out".toList)
    demoFS "tool-v1-linux-amd64".toList { status := 200, body := [9], bodyErr := false }
    [pathJoin "out".toList (pathBase "tool-v1-linux-amd64".toList)]
    (by decide) (by decide) rfl (by decide) (by decide)
  ⟨by decide, h.2⟩

/-- C7 as stated fails: when the destination of the plain copy is the
temporary download file itself, the run ends without error and reports the
path, but the file was emptied before it was read and is removed at the end. -/
theorem main_plain_copy_onto_temp :
    dispatch demoWorld.ToLower "ghrelgrab-1".toList = Strategy.plain ∧
    filenameOf (demoFlags "ghrelgrab-1".toList "/tmp".toList) = some "ghrelgrab-1".toList ∧
    (main demoWorld (demoFlags "ghrelgrab-1".toList "/tmp".toList) demoFS).exit =
      Exit.saved ["/tmp/ghrelgrab-1".toList] ∧
    fileData (main demoWorld (demoFlags "ghrelgrab-1".toList "/tmp".toList) demoFS).fs
      "/tmp/ghrelgrab-1".toList = none := by
  decide

/-- C8 fails on the code: when the extraction fails, or the writing of the
download does, the process leaves by `os.Exit(1)` and the temporary file that
the run created is still there. -/
theorem main_failure_keeps_temp :
    stat demoFS "/tmp/ghrelgrab-1".toList = none ∧
    (main demoWorld (demoFlags "tool-{os}.zip".toList "out".toList) demoFS).exit =
      Exit.status 1 ∧
    fileData (main demoWorld (demoFlags "tool-{os}.zip".toList "out".toList) demoFS).fs
      "/tmp/ghrelgrab-1".toList = some [9] ∧
    (main brokenWorld (demoFlags "tool-{os}.zip".toList "out".toList) demoFS).exit =
      Exit.status 1 ∧
    fileData (main brokenWorld (demoFlags "tool-{os}.zip".toList "out".toList) demoFS).fs
      "/tmp/ghrelgrab-1".toList = some [9] := by
  decide

end Ghrelgrab
